import Mathlib

/-!
Verification development for the interactive-tagging-scripts repository.

The repository consists of three Python scripts (`cbz_tagging.py`,
`manga_tagging.py`, `manga_dir_tagging.py`).  This file gives a shallow
embedding of their core pure logic:

* string sanitisation (`clean_string` of both variants),
* volume-number extraction (`extract_volume_number` of both variants,
  modelling Python `re.search` with its leftmost-position /
  alternative-order semantics for the concrete patterns used),
* metadata collection (`get_metadata_input` of both variants, as a pure
  function of the five prompted strings),
* metadata serialisation (`get_comictagger_command` / the `-m` argument),
* the batch sort key and ordering of `process_cbz_files`,
* the fixed metadata template of `manga_dir_tagging.process_dir`.

Modelling conventions: strings are `String`/`List Char`; Python's
whitespace class and `str.strip` are modelled over the ASCII whitespace
characters space, tab, newline, carriage return; `\d` and `str.isnumeric`
are modelled as ASCII digits; `re.IGNORECASE` is modelled as ASCII
case-insensitivity (each pattern letter matches its two ASCII cases).
-/

/-- ASCII model of Python's whitespace class (used by `strip` and `\s`). -/
def isWS (c : Char) : Bool :=
  if c = ' ' ∨ c = '\t' ∨ c = '\n' ∨ c = '\r' then true else false

/-- The character-replacement table `CHAR_REPLACEMENT_MAPPING` of
`cbz_tagging.py` (lines 122-127), as a partial map from characters to
replacement strings.  `apos` below stands for the plain apostrophe. -/
def apos : Char := Char.ofNat 39

def CHAR_REPLACEMENT_MAPPING (c : Char) : Option (List Char) :=
  if c = ',' then some ['^', ',']
  else if c = '\n' then some [' ']
  else if c = '=' then some ['^', '=']
  else if c = '’' then some [apos]
  else none

/-- One character step of `re.sub(r"[,\n=]", ...)` in
`cbz_tagging.clean_string`: only the three characters of the regex class
are looked up in the mapping; every other character (including `’`) is
kept unchanged. -/
def replChar (c : Char) : List Char :=
  if c = ',' then ['^', ',']
  else if c = '\n' then [' ']
  else if c = '=' then ['^', '=']
  else [c]

/-- The full `re.sub(r"[,\n=]", ...)` pass of `cbz_tagging.clean_string`. -/
def subSpecials : List Char → List Char
  | [] => []
  | c :: rest => replChar c ++ subSpecials rest

/-- Remove trailing whitespace (the right half of Python `str.strip`). -/
def dropTrailingWS : List Char → List Char
  | [] => []
  | c :: rest =>
    if dropTrailingWS rest = [] ∧ isWS c = true then []
    else c :: dropTrailingWS rest

/-- Python `str.strip()` over the modelled whitespace class. -/
def pyStrip (l : List Char) : List Char :=
  dropTrailingWS (l.dropWhile isWS)

/-- State-passing collapse of whitespace runs, modelling
`re.sub(r"\s+", " ", ...)`: the flag records whether the previous input
character was whitespace (in which case further whitespace is dropped). -/
def collapseAux : Bool → List Char → List Char
  | _, [] => []
  | b, c :: rest =>
    if isWS c = true then
      if b then collapseAux true rest else ' ' :: collapseAux true rest
    else c :: collapseAux false rest

def collapseWS (l : List Char) : List Char := collapseAux false l

/-- Python `str.replace("...", "…")`: left-to-right, non-overlapping,
the replacement text is not rescanned. -/
def replaceEllipsis : List Char → List Char
  | [] => []
  | [c] => [c]
  | [c, d] => [c, d]
  | c :: d :: e :: rest =>
    if c = '.' ∧ d = '.' ∧ e = '.' then '…' :: replaceEllipsis rest
    else c :: replaceEllipsis (d :: e :: rest)

/-- `clean_string` of `cbz_tagging.py` (lines 130-148): replace the
characters of the regex class `[,\n=]` via the mapping, strip, collapse
whitespace runs to a single space, replace `...` by the ellipsis. -/
def clean_string (s : String) : String :=
  ⟨replaceEllipsis (collapseWS (pyStrip (subSpecials s.data)))⟩

/-- One character step of `str.replace(',', '^,')`. -/
def replCommaChar (c : Char) : List Char :=
  if c = ',' then ['^', ','] else [c]

def replComma : List Char → List Char
  | [] => []
  | c :: rest => replCommaChar c ++ replComma rest

/-- One character step of `str.replace('=', '^=')`. -/
def replEqChar (c : Char) : List Char :=
  if c = '=' then ['^', '='] else [c]

def replEq : List Char → List Char
  | [] => []
  | c :: rest => replEqChar c ++ replEq rest

/-- Python `str.replace('  ', ' ')`: left-to-right, non-overlapping. -/
def replDblSpace : List Char → List Char
  | [] => []
  | [c] => [c]
  | c :: d :: rest =>
    if c = ' ' ∧ d = ' ' then ' ' :: replDblSpace rest
    else c :: replDblSpace (d :: rest)

/-- Python `str.replace('\n', '')`. -/
def removeNl : List Char → List Char
  | [] => []
  | c :: rest => if c = '\n' then removeNl rest else c :: removeNl rest

/-- Python `str.replace('...', 'â€¦')` of `manga_tagging.py` (the source
file stores the mojibake three-character sequence, not the ellipsis). -/
def replDots3 : List Char → List Char
  | [] => []
  | [c] => [c]
  | [c, d] => [c, d]
  | c :: d :: e :: rest =>
    if c = '.' ∧ d = '.' ∧ e = '.' then 'â' :: '€' :: '¦' :: replDots3 rest
    else c :: replDots3 (d :: e :: rest)

/-- `clean_string` of `manga_tagging.py` (line 170):
`.replace(',', '^,').replace('=', '^=').strip().replace('  ', ' ')
.replace('\n', '').replace('...', 'â€¦')`. -/
def manga_clean_string (s : String) : String :=
  ⟨replDots3 (removeNl (replDblSpace (pyStrip (replEq (replComma s.data)))))⟩

/-! ### Volume-number extraction -/

/-- Match a case-insensitive pattern prefix: every pattern position is a
pair of the characters accepted there (lower/upper ASCII case).  Returns
the remainder of the input on success. -/
def stripCI : List (Char × Char) → List Char → Option (List Char)
  | [], l => some l
  | _ :: _, [] => none
  | ab :: ps, c :: cs =>
    if c = ab.1 ∨ c = ab.2 then stripCI ps cs else none

def patV : List (Char × Char) := [('v', 'V')]

def patVolume : List (Char × Char) :=
  [('v', 'V'), ('o', 'O'), ('l', 'L'), ('u', 'U'), ('m', 'M'), ('e', 'E')]

def patVol : List (Char × Char) := [('v', 'V'), ('o', 'O'), ('l', 'L')]

/-- Greedy `(\d+)`: the maximal leading digit run, if non-empty. -/
def digitsOf (r : List Char) : Option (List Char) :=
  let ds := r.takeWhile Char.isDigit
  if ds = [] then none else some ds

/-- Alternative `v(\d+)` of the `cbz_tagging` regex. -/
def cbzVAlt (l : List Char) : Option (List Char) :=
  match stripCI patV l with
  | some r => digitsOf r
  | none => none

/-- Alternative `volume (\d+)` (a single literal space). -/
def cbzVolumeAlt (l : List Char) : Option (List Char) :=
  match stripCI patVolume l with
  | some r =>
    match r with
    | c :: r2 => if c = ' ' then digitsOf r2 else none
    | [] => none
  | none => none

/-- Alternative `vol\.? (\d+)` (optional period, single literal space). -/
def cbzVolDotAlt (l : List Char) : Option (List Char) :=
  match stripCI patVol l with
  | some r =>
    match r with
    | c :: r2 =>
      if c = '.' then
        match r2 with
        | c2 :: r3 => if c2 = ' ' then digitsOf r3 else none
        | [] => none
      else if c = ' ' then digitsOf r2 else none
    | [] => none
  | none => none

/-- Alternative `#(\d+)`. -/
def cbzHashAlt (l : List Char) : Option (List Char) :=
  match l with
  | c :: r => if c = '#' then digitsOf r else none
  | [] => none

/-- One position of `re.search(r"v(\d+)|volume (\d+)|vol\.? (\d+)|#(\d+)",
title, re.IGNORECASE)`: alternatives tried in the order written. -/
def cbzMatchAt (l : List Char) : Option (List Char) :=
  match cbzVAlt l with
  | some ds => some ds
  | none =>
    match cbzVolumeAlt l with
    | some ds => some ds
    | none =>
      match cbzVolDotAlt l with
      | some ds => some ds
      | none => cbzHashAlt l

/-- `re.search` scans positions left to right. -/
def cbzSearch : List Char → Option (List Char)
  | [] => none
  | c :: rest =>
    match cbzMatchAt (c :: rest) with
    | some ds => some ds
    | none => cbzSearch rest

/-- `extract_volume_number` of `cbz_tagging.py` (lines 151-181):
`next(filter(None, match.groups()), "")` yields the digit group of the
matched alternative, or the empty string when nothing matches. -/
def extract_volume_number (title : String) : String :=
  match cbzSearch title.data with
  | some ds => ⟨ds⟩
  | none => ""

/-- Alternative `volume` + `(\d+)` (no separator) of the `manga_tagging`
regex `(?:volume|vol\.?|#|v)(\d+)`. -/
def mangaVolumeAlt (l : List Char) : Option (List Char) :=
  match stripCI patVolume l with
  | some r => digitsOf r
  | none => none

/-- Alternative `vol\.?` + `(\d+)` (no separator). -/
def mangaVolDotAlt (l : List Char) : Option (List Char) :=
  match stripCI patVol l with
  | some r =>
    match r with
    | c :: r2 => if c = '.' then digitsOf r2 else digitsOf (c :: r2)
    | [] => none
  | none => none

def mangaHashAlt (l : List Char) : Option (List Char) :=
  match l with
  | c :: r => if c = '#' then digitsOf r else none
  | [] => none

def mangaVAlt (l : List Char) : Option (List Char) :=
  match stripCI patV l with
  | some r => digitsOf r
  | none => none

/-- One position of `re.search(r"(?:volume|vol\.?|#|v)(\d+)", title,
re.IGNORECASE)` from `manga_tagging.py` (line 212). -/
def mangaMatchAt (l : List Char) : Option (List Char) :=
  match mangaVolumeAlt l with
  | some ds => some ds
  | none =>
    match mangaVolDotAlt l with
    | some ds => some ds
    | none =>
      match mangaHashAlt l with
      | some ds => some ds
      | none => mangaVAlt l

def mangaSearch : List Char → Option (List Char)
  | [] => none
  | c :: rest =>
    match mangaMatchAt (c :: rest) with
    | some ds => some ds
    | none => mangaSearch rest

/-- `extract_volume_number` of `manga_tagging.py` (lines 200-215). -/
def manga_extract_volume_number (title : String) : String :=
  match mangaSearch title.data with
  | some ds => ⟨ds⟩
  | none => ""

/-! ### Metadata collection and serialisation -/

def parseNatAux (acc : Nat) : List Char → Nat
  | [] => acc
  | c :: rest => parseNatAux (acc * 10 + (c.toNat - 48)) rest

/-- ASCII model of `int(v)` guarded by `v.isnumeric()`: succeeds exactly
on non-empty all-digit strings. -/
def parseNat (l : List Char) : Option Nat :=
  if l ≠ [] ∧ l.all Char.isDigit then some (parseNatAux 0 l) else none

/-- One date field of `cbz_tagging.get_metadata_input`: empty input skips
the field, a valid in-range numeric value is kept (as the parsed number,
later rendered with `str(...)`), anything else raises `ValueError`. -/
def checkDate (lo hi : Nat) (v : String) : Except Unit (Option Nat) :=
  if v = "" then .ok none
  else
    match parseNat v.data with
    | none => .error ()
    | some n => if lo ≤ n ∧ n ≤ hi then .ok (some n) else .error ()

def dateEntry (name : String) : Option Nat → List (String × String)
  | some n => [(name, toString n)]
  | none => []

/-- A date-component string is numeric and within the inclusive range. -/
def dateFieldValid (lo hi : Nat) (v : String) : Bool :=
  match parseNat v.data with
  | none => false
  | some n => decide (lo ≤ n ∧ n ≤ hi)

/-- `get_metadata_input` of `cbz_tagging.py` (lines 184-215) as a pure
function of the five prompted strings (year, month, day, title,
comments).  `Except.error` models the raised `ValueError`. -/
def cbz_get_metadata_input (y m d t c : String) :
    Except Unit (List (String × String)) :=
  match checkDate 1900 2100 y with
  | .error e => .error e
  | .ok ry =>
    match checkDate 1 12 m with
    | .error e => .error e
    | .ok rm =>
      match checkDate 1 31 d with
      | .error e => .error e
      | .ok rd =>
        .ok (dateEntry "year" ry ++ dateEntry "month" rm ++ dateEntry "day" rd ++
          (if t = "" then []
           else ("title", clean_string t) ::
             (if extract_volume_number t = "" then []
              else [("volume", extract_volume_number t)])) ++
          (if c = "" then [] else [("comments", clean_string c)]))

/-- One date field of `manga_tagging.get_metadata_input`: the raw input
string is stored; `none` models the caught `ValueError` (the function
then returns `None`). -/
def mangaCheckDate (lo hi : Nat) (v : String) : Option (Option String) :=
  if v = "" then some none
  else
    match parseNat v.data with
    | none => none
    | some n => if lo ≤ n ∧ n ≤ hi then some (some v) else none

def mangaDateEntry (name : String) : Option String → List (String × String)
  | some v => [(name, v)]
  | none => []

/-- `get_metadata_input` of `manga_tagging.py` (lines 124-159) as a pure
function of the five prompted strings; `none` is the `return None` taken
on invalid input. -/
def manga_get_metadata_input (y m d t c : String) :
    Option (List (String × String)) :=
  match mangaCheckDate 1900 2100 y with
  | none => none
  | some ry =>
    match mangaCheckDate 1 12 m with
    | none => none
    | some rm =>
      match mangaCheckDate 1 31 d with
      | none => none
      | some rd =>
        some (mangaDateEntry "year" ry ++ mangaDateEntry "month" rm ++
          mangaDateEntry "day" rd ++
          (if t = "" then []
           else ("title", manga_clean_string t) ::
             (if manga_extract_volume_number t = "" then []
              else [("volume", manga_extract_volume_number t)])) ++
          (if c = "" then [] else [("comments", manga_clean_string c)]))

/-- The `-m` argument: `",".join(f"{key}={value}" ...)`. -/
def joinMeta (pairs : List (String × String)) : String :=
  String.intercalate "," (pairs.map (fun kv => kv.1 ++ "=" ++ kv.2))

/-- `get_comictagger_command` of `cbz_tagging.py` (lines 218-240). -/
def get_comictagger_command (metadata : List (String × String))
    (filePath : String) : List String :=
  ["comictagger", "-s", "-t", "cr", "--overwrite", "-m",
   joinMeta metadata, filePath]

/-- `get_comictagger_command` of `manga_tagging.py` (lines 172-198). -/
def manga_comictagger_command (metadata : List (String × String))
    (filePath : String) : List String :=
  ["comictagger", "-s", "-t", "CR", "--overwrite", "--metadata",
   joinMeta metadata, filePath]

/-! ### Batch ordering -/

/-- The sort key of `process_cbz_files`:
`int(extract_volume_number(x)) if extract_volume_number(x) else float("inf")`.
`none` stands for positive infinity. -/
def volume_sort_key (name : String) : Option Nat :=
  parseNat (extract_volume_number name).data

def keyLE : Option Nat → Option Nat → Bool
  | _, none => true
  | none, some _ => false
  | some a, some b => decide (a ≤ b)

/-- The total preorder used for the batch sort. -/
def cbzOrder (a b : String) : Prop :=
  keyLE (volume_sort_key a) (volume_sort_key b) = true

instance : DecidableRel cbzOrder := fun a b =>
  inferInstanceAs (Decidable (keyLE (volume_sort_key a) (volume_sort_key b) = true))

instance : IsTotal String cbzOrder :=
  ⟨fun a b => by
    unfold cbzOrder
    cases volume_sort_key a with
    | none =>
      cases volume_sort_key b with
      | none => exact Or.inl rfl
      | some y => exact Or.inr rfl
    | some x =>
      cases volume_sort_key b with
      | none => exact Or.inl rfl
      | some y =>
        rcases Nat.le_total x y with h | h
        · exact Or.inl (by simp [keyLE, h])
        · exact Or.inr (by simp [keyLE, h])⟩

instance : IsTrans String cbzOrder :=
  ⟨fun a b c hab hbc => by
    unfold cbzOrder at hab hbc ⊢
    cases ha : volume_sort_key a with
    | none =>
      rw [ha] at hab
      cases hb : volume_sort_key b with
      | none =>
        rw [hb] at hbc
        exact hbc
      | some y =>
        rw [hb] at hab
        exact absurd hab (by simp [keyLE])
    | some x =>
      cases hc : volume_sort_key c with
      | none => rfl
      | some z =>
        rw [ha] at hab
        rw [hc] at hbc
        cases hb : volume_sort_key b with
        | none =>
          rw [hb] at hbc
          exact absurd hbc (by simp [keyLE])
        | some y =>
          rw [hb] at hab hbc
          simp only [keyLE, decide_eq_true_eq] at hab hbc ⊢
          omega⟩

/-- Python `f.endswith(".cbz")`. -/
def endsWithCbz (f : String) : Bool :=
  if f.data.reverse.take 4 = ['z', 'b', 'c', '.'] then true else false

/-- The processing order of `process_cbz_files` (cbz variant lines
251-256, manga variant lines 98-99): filter the listing to `.cbz` names,
then stable-sort by `volume_sort_key` (Python `list.sort` is stable;
modelled by insertion sort, which is stable). -/
def process_order (listing : List String) : List String :=
  List.insertionSort cbzOrder (listing.filter endsWithCbz)

/-! ### Per-file tagging decision -/

inductive TagAction where
  | runTagger : List String → TagAction
  | printTags : String → TagAction
  | warnMissing : String → TagAction
deriving DecidableEq

def isRunB : TagAction → Bool
  | .runTagger _ => true
  | _ => false

/-- The per-file decision of `cbz_tagging.process_cbz_files` (lines
267-281), given the metadata mapping returned by `get_metadata_input`
(success path of the subprocess calls). -/
def cbz_file_actions (metadata : List (String × String))
    (filePath fileName : String) : List TagAction :=
  if metadata = [] then [TagAction.warnMissing fileName]
  else [TagAction.runTagger (get_comictagger_command metadata filePath),
        TagAction.printTags filePath]

/-- The per-file decision of `manga_tagging.process_cbz_files` (lines
109-120); `none` is a `get_metadata_input` that returned `None`. -/
def manga_file_actions (metadata : Option (List (String × String)))
    (filePath : String) : List TagAction :=
  match metadata with
  | none => []
  | some m =>
    if m = [] then []
    else [TagAction.runTagger (manga_comictagger_command m filePath),
          TagAction.printTags filePath]

/-! ### Directory tagging (`manga_dir_tagging.py`) -/

structure BookMeta where
  manga : Option String
  black_and_white : Option String
  language : Option String
  genre : Option String
  maturity_rating : Option String
  publisher : Option String
  imprint : Option String
  series : Option String
  series_group : Option String
  web_link : Option String
  credit : List (String × String)
  characters : List String

/-- The metadata string built by `process_dir` (lines 46-78): the fixed
template with `metadata.get(key, "")` defaults, the credit entries joined
with a comma and space, the characters joined with `^,`. -/
def process_dir_metadata (m : BookMeta) : String :=
  "manga=" ++ m.manga.getD "" ++
  ",black_and_white=" ++ m.black_and_white.getD "" ++
  ",language=" ++ m.language.getD "" ++
  ",genre=" ++ m.genre.getD "" ++
  ",maturity_rating=" ++ m.maturity_rating.getD "" ++
  ",publisher=" ++ m.publisher.getD "" ++
  ",imprint=" ++ m.imprint.getD "" ++
  ",series=" ++ m.series.getD "" ++
  ",series_group=" ++ m.series_group.getD "" ++
  ",web_link=" ++ m.web_link.getD "" ++
  "," ++ String.intercalate ", "
      (m.credit.map (fun kv => "credit=" ++ kv.1 ++ ":" ++ kv.2)) ++
  ",characters=" ++ String.intercalate "^," m.characters

def emptyBookMeta : BookMeta :=
  ⟨none, none, none, none, none, none, none, none, none, none, [], []⟩

/-! ### Boolean scanners used to state the sanitisation properties -/

/-- Every comma or equals sign is immediately preceded by a caret; the
flag records whether the previous character was a caret. -/
def noRawAux : Bool → List Char → Bool
  | _, [] => true
  | p, c :: rest =>
    (if c = ',' ∨ c = '=' then p else true) && noRawAux (c == '^') rest

/-- No two adjacent whitespace characters; the flag records whether the
previous character was whitespace. -/
def noWSRunAux : Bool → List Char → Bool
  | _, [] => true
  | p, c :: rest => !(p && isWS c) && noWSRunAux (isWS c) rest

def noWSRun (l : List Char) : Bool := noWSRunAux false l

/-- No three consecutive periods; the counter is the length of the
current trailing period run (capped at 2). -/
def noTripleAux : Nat → List Char → Bool
  | _, [] => true
  | n, c :: rest =>
    if c = '.' then
      if 2 ≤ n then false else noTripleAux (n + 1) rest
    else noTripleAux 0 rest

def noTripleDot (l : List Char) : Bool := noTripleAux 0 l

/-- Every whitespace character is a plain space. -/
def wsSpaceOnly (l : List Char) : Bool :=
  l.all (fun c => !(isWS c) || (c == ' '))

/-- The first character, if any, is not whitespace. -/
def headNotWS : List Char → Bool
  | [] => true
  | c :: _ => !(isWS c)

/-- The last character, if any, is not whitespace. -/
def lastNotWS (l : List Char) : Bool :=
  match l.getLast? with
  | none => true
  | some c => !(isWS c)

/-- The string has no comma and no equals sign. -/
def noSepChars (l : List Char) : Bool :=
  l.all (fun c => !(c == ',') && !(c == '='))

/-- The string has no comma, no equals sign and no newline. -/
def noSepNlChars (l : List Char) : Bool :=
  l.all (fun c => !(c == ',') && !(c == '=') && !(c == '\n'))

/-! ### Claim-side pattern predicate for C1 (refinement comparison)

`specAltAt` follows the wording of claim C1 / spec §4.1: `v` immediately
followed by digits, `volume` followed by whitespace and digits, `vol`
optionally followed by a period then whitespace and digits, `#`
immediately followed by digits (case-insensitive). -/

def wsDigits (r : List Char) : Bool :=
  decide (r.takeWhile isWS ≠ []) &&
  decide ((r.dropWhile isWS).takeWhile Char.isDigit ≠ [])

def specAltAt (l : List Char) : Bool :=
  (match stripCI patV l with
   | some r => decide (r.takeWhile Char.isDigit ≠ [])
   | none => false) ||
  (match stripCI patVolume l with
   | some r => wsDigits r
   | none => false) ||
  (match stripCI patVol l with
   | some r =>
     wsDigits r ||
       (match r with
        | '.' :: r2 => wsDigits r2
        | _ => false)
   | none => false) ||
  (match l with
   | '#' :: r => decide (r.takeWhile Char.isDigit ≠ [])
   | _ => false)

def specScan : List Char → Bool
  | [] => false
  | c :: rest => specAltAt (c :: rest) || specScan rest

/-- Does the title contain one of the four patterns as worded in the
claim (whitespace-separated forms)? -/
def spec_pattern_present (s : String) : Bool := specScan s.data

/-! ### Declarative characterisation of the extraction (for C1) -/

def DigitRun (ds : List Char) : Prop :=
  ds ≠ [] ∧ ∀ c ∈ ds, Char.isDigit c = true

/-- `w` spells the case-insensitive pattern `p`. -/
def CIWord (w : List Char) (p : List (Char × Char)) : Prop :=
  List.Forall₂ (fun c ab => c = ab.1 ∨ c = ab.2) w p

/-- A chunk of the title matched by one alternative of the `cbz_tagging`
regex, capturing the digit run `ds`. -/
def CbzChunk (chunk ds : List Char) : Prop :=
  (∃ v, CIWord [v] patV ∧ chunk = v :: ds) ∨
  (∃ w, CIWord w patVolume ∧ chunk = w ++ ' ' :: ds) ∨
  (∃ w, CIWord w patVol ∧
    (chunk = w ++ ' ' :: ds ∨ chunk = w ++ '.' :: ' ' :: ds)) ∨
  chunk = '#' :: ds

def CbzOccurs (s : String) : Prop :=
  ∃ pre chunk post ds, s.data = pre ++ chunk ++ post ∧
    CbzChunk chunk ds ∧ DigitRun ds

def CbzMatched (s : String) (ds : List Char) : Prop :=
  ∃ pre chunk post, s.data = pre ++ chunk ++ post ∧
    CbzChunk chunk ds ∧ DigitRun ds ∧
    ∀ c, post.head? = some c → Char.isDigit c = false

/-- A chunk matched by one alternative of the `manga_tagging` regex. -/
def MangaChunk (chunk ds : List Char) : Prop :=
  (∃ w, CIWord w patVolume ∧ chunk = w ++ ds) ∨
  (∃ w, CIWord w patVol ∧ (chunk = w ++ ds ∨ chunk = w ++ '.' :: ds)) ∨
  chunk = '#' :: ds ∨
  (∃ v, CIWord [v] patV ∧ chunk = v :: ds)

def MangaOccurs (s : String) : Prop :=
  ∃ pre chunk post ds, s.data = pre ++ chunk ++ post ∧
    MangaChunk chunk ds ∧ DigitRun ds

def MangaMatched (s : String) (ds : List Char) : Prop :=
  ∃ pre chunk post, s.data = pre ++ chunk ++ post ∧
    MangaChunk chunk ds ∧ DigitRun ds ∧
    ∀ c, post.head? = some c → Char.isDigit c = false

/-! ## Claim theorems -/

/-- C1 (counterexample): the claim's whitespace-separated patterns do not
match the code.  `volume<TAB>3` contains the claimed pattern `volume`
followed by whitespace and digits, yet the cbz extractor (which requires
a single literal space) returns the empty string; `Volume 3` contains the
claimed pattern yet the manga extractor (which requires the digits
immediately after the keyword) returns the empty string; conversely
`vol.7` contains none of the claimed patterns yet the manga extractor
returns `7`. -/
theorem extract_volume_claim_counterexample :
    spec_pattern_present "volume\t3" = true ∧
    extract_volume_number "volume\t3" = "" ∧
    spec_pattern_present "Volume 3" = true ∧
    manga_extract_volume_number "Volume 3" = "" ∧
    spec_pattern_present "vol.7" = false ∧
    manga_extract_volume_number "vol.7" = "7" := by
  decide

/-- C3 (confirmed): for inputs year `2021`, title `Hero, Vol. 5` and
empty month/day/comments, the metadata mapping is
`[year ↦ 2021, title ↦ Hero^, Vol. 5, volume ↦ 5]` in insertion order,
and the joined `-m` argument is exactly
`year=2021,title=Hero^, Vol. 5,volume=5`. -/
theorem end_to_end_hero_vol5 :
    cbz_get_metadata_input "2021" "" "" "Hero, Vol. 5" ""
      = Except.ok [("year", "2021"), ("title", "Hero^, Vol. 5"), ("volume", "5")] ∧
    joinMeta [("year", "2021"), ("title", "Hero^, Vol. 5"), ("volume", "5")]
      = "year=2021,title=Hero^, Vol. 5,volume=5" ∧
    get_comictagger_command
        [("year", "2021"), ("title", "Hero^, Vol. 5"), ("volume", "5")] "f.cbz"
      = ["comictagger", "-s", "-t", "cr", "--overwrite", "-m",
         "year=2021,title=Hero^, Vol. 5,volume=5", "f.cbz"] := by
  refine ⟨rfl, by decide, by decide⟩

/-- C4 (counterexample): `clean_string` is not idempotent.  The cbz
variant re-escapes the caret-escaped comma (`,` cleans to `^,`, which
cleans to `^^,`), and the manga variant leaves a double space after one
pass over a triple space, which a second pass collapses further. -/
theorem clean_string_not_idempotent :
    clean_string (clean_string ",") ≠ clean_string "," ∧
    manga_clean_string (manga_clean_string "a   b") ≠ manga_clean_string "a   b" := by
  decide

/-- C5 (counterexample): the manga variant of `clean_string` only
replaces literal two-space pairs in a single pass, so `a   b` (three
spaces) cleans to `a  b`, which still contains a whitespace run of
length two. -/
theorem manga_clean_double_space_counterexample :
    manga_clean_string "a   b" = "a  b" ∧
    noWSRun (manga_clean_string "a   b").data = false := by
  decide

/-- C7 (counterexample): an out-of-range year is rejected, but the field
is not re-prompted: the cbz variant's metadata entry aborts with a raised
`ValueError` (modelled `Except.error`), and the manga variant returns
`None`, abandoning the file's metadata. -/
theorem invalid_date_no_reprompt_counterexample :
    cbz_get_metadata_input "1899" "" "" "" "" = Except.error () ∧
    manga_get_metadata_input "1899" "" "" "" "" = none :=
  ⟨rfl, rfl⟩

/-- C8 (counterexample): when the metadata mapping is empty, the manga
variant of `process_cbz_files` runs no tagger but also produces no
"skipped due to missing metadata" notice: its action list is empty. -/
theorem manga_empty_metadata_silent :
    manga_file_actions (some []) "x.cbz" = ([] : List TagAction) :=
  rfl

/-- C8 (amended): with an empty metadata mapping no tagger process is
invoked by either variant; the cbz variant logs the
"skipping ... due to missing metadata" warning while the manga variant
does nothing at all. -/
theorem empty_metadata_no_invocation : ∀ fp fn : String,
    cbz_file_actions [] fp fn = [TagAction.warnMissing fn] ∧
    manga_file_actions (some []) fp = [] ∧
    manga_file_actions none fp = [] ∧
    (cbz_file_actions [] fp fn).all (fun a => !isRunB a) = true := by
  intro fp fn
  exact ⟨rfl, rfl, rfl, rfl⟩

/-- C9 (counterexample): a whitespace-only title passes the truthiness
check of `cbz_tagging.get_metadata_input` but sanitises to the empty
string, so the serialised mapping contains `title=` with an empty value;
and `manga_dir_tagging.process_dir` always emits every template key, with
empty values for all missing fields. -/
theorem metadata_invariant_counterexample :
    cbz_get_metadata_input "" "" "" " " "" = Except.ok [("title", "")] ∧
    process_dir_metadata emptyBookMeta
      = "manga=,black_and_white=,language=,genre=,maturity_rating=,publisher=,imprint=,series=,series_group=,web_link=,,characters=" :=
  ⟨rfl, by decide⟩

/-- C10 (code bug): `CHAR_REPLACEMENT_MAPPING` declares the replacement
of the right single quotation mark by a plain apostrophe, but the regex
class `[,\n=]` in `clean_string` never matches that character, so neither
variant performs the replacement: `’` is returned unchanged. -/
theorem rsquo_mapping_dead_entry :
    CHAR_REPLACEMENT_MAPPING '’' = some [apos] ∧
    clean_string "’" = "’" ∧
    manga_clean_string "’" = "’" := by
  decide

theorem noRawAux_mono {l : List Char} (h : noRawAux false l = true) (p : Bool) :
    noRawAux p l = true := by
  cases l with
  | nil => rfl
  | cons c rest =>
    simp only [noRawAux, Bool.and_eq_true] at h ⊢
    refine ⟨?_, h.2⟩
    have h1 := h.1
    split at h1
    · exact absurd h1 (by decide)
    · split
      · simp_all
      · rfl

theorem noRawAux_subSpecials (l : List Char) (p : Bool) :
    noRawAux p (subSpecials l) = true := by
  induction l generalizing p with
  | nil => rfl
  | cons c rest ih =>
    by_cases hc : c = ','
    · subst hc
      show noRawAux p ('^' :: ',' :: subSpecials rest) = true
      simp [noRawAux, ih]
    · by_cases hn : c = '\n'
      · subst hn
        show noRawAux p (' ' :: subSpecials rest) = true
        simp [noRawAux, ih]
      · by_cases he : c = '='
        · subst he
          show noRawAux p ('^' :: '=' :: subSpecials rest) = true
          simp [noRawAux, ih]
        · have hs : subSpecials (c :: rest) = c :: subSpecials rest := by
            simp [subSpecials, replChar, hc, hn, he]
          rw [hs]
          simp only [noRawAux]
          rw [if_neg (by tauto : ¬(c = ',' ∨ c = '='))]
          simpa using ih _

theorem isWS_eq_true {c : Char} :
    isWS c = true ↔ c = ' ' ∨ c = '\t' ∨ c = '\n' ∨ c = '\r' := by
  unfold isWS
  split <;> simp_all

theorem ws_beq_caret {c : Char} (h : isWS c = true) : (c == '^') = false := by
  rw [isWS_eq_true] at h
  rcases h with rfl | rfl | rfl | rfl <;> decide

theorem ws_not_sep {c : Char} (h : isWS c = true) : ¬(c = ',' ∨ c = '=') := by
  rw [isWS_eq_true] at h
  rcases h with rfl | rfl | rfl | rfl <;> decide

theorem noRawAux_dropWhileWS (l : List Char) (p : Bool)
    (h : noRawAux p l = true) : noRawAux p (l.dropWhile isWS) = true := by
  induction l generalizing p with
  | nil => exact h
  | cons c rest ih =>
    simp only [List.dropWhile_cons]
    split
    · rename_i hw
      simp only [noRawAux, Bool.and_eq_true] at h
      have h2 := h.2
      rw [ws_beq_caret hw] at h2
      exact noRawAux_mono (ih false h2) p
    · exact h

theorem noRawAux_dropTrailing (l : List Char) (p : Bool)
    (h : noRawAux p l = true) : noRawAux p (dropTrailingWS l) = true := by
  induction l generalizing p with
  | nil => exact h
  | cons c rest ih =>
    simp only [noRawAux, Bool.and_eq_true] at h
    unfold dropTrailingWS
    split
    · rfl
    · simp only [noRawAux, Bool.and_eq_true]
      exact ⟨h.1, ih _ h.2⟩

theorem noRawAux_collapse (l : List Char) (b p : Bool)
    (h : noRawAux p l = true) : noRawAux p (collapseAux b l) = true := by
  induction l generalizing b p with
  | nil => exact h
  | cons c rest ih =>
    simp only [noRawAux, Bool.and_eq_true] at h
    unfold collapseAux
    split
    · rename_i hw
      have h2 := h.2
      rw [ws_beq_caret hw] at h2
      split
      · exact noRawAux_mono (ih true false h2) p
      · simp only [noRawAux, Bool.and_eq_true]
        constructor
        · rw [if_neg (by decide : ¬((' ' : Char) = ',' ∨ (' ' : Char) = '='))]
        · exact noRawAux_mono (ih true false h2) _
    · simp only [noRawAux, Bool.and_eq_true]
      exact ⟨h.1, ih false _ h.2⟩

theorem noRawAux_replaceEllipsis (l : List Char) (p : Bool)
    (h : noRawAux p l = true) : noRawAux p (replaceEllipsis l) = true := by
  induction l using replaceEllipsis.induct generalizing p with
  | case1 => exact h
  | case2 c => exact h
  | case3 c d => exact h
  | case4 c d e rest hcde ih =>
    obtain ⟨rfl, rfl, rfl⟩ := hcde
    simp only [noRawAux, Bool.and_eq_true] at h
    have h2 := h.2.2.2
    rw [show (('.' : Char) == '^') = false from rfl] at h2
    rw [replaceEllipsis]
    rw [if_pos ⟨rfl, rfl, rfl⟩]
    simp only [noRawAux, Bool.and_eq_true]
    constructor
    · rw [if_neg (by decide : ¬(('…' : Char) = ',' ∨ ('…' : Char) = '='))]
    · exact noRawAux_mono (ih false h2) _
  | case5 c d e rest hcde ih =>
    rw [replaceEllipsis, if_neg hcde]
    have h1 : (if c = ',' ∨ c = '=' then p else true) = true := by
      simp only [noRawAux, Bool.and_eq_true] at h
      exact h.1
    have h2 : noRawAux (c == '^') (d :: e :: rest) = true := by
      simp only [noRawAux, Bool.and_eq_true] at h ⊢
      exact ⟨h.2.1, h.2.2⟩
    simp only [noRawAux, Bool.and_eq_true]
    exact ⟨h1, ih _ h2⟩

theorem replEq_append (a b : List Char) :
    replEq (a ++ b) = replEq a ++ replEq b := by
  induction a with
  | nil => rfl
  | cons c rest ih =>
    show replEqChar c ++ replEq (rest ++ b) = (replEqChar c ++ replEq rest) ++ replEq b
    rw [ih, List.append_assoc]

theorem noRawAux_replEq_replComma (l : List Char) (p : Bool) :
    noRawAux p (replEq (replComma l)) = true := by
  induction l generalizing p with
  | nil => rfl
  | cons c rest ih =>
    have hc : replComma (c :: rest) = replCommaChar c ++ replComma rest := rfl
    rw [hc, replEq_append]
    by_cases h1 : c = ','
    · subst h1
      have : replEq (replCommaChar ',') = ['^', ','] := by decide
      rw [this]
      simp [noRawAux, ih]
    · by_cases h2 : c = '='
      · subst h2
        have : replEq (replCommaChar '=') = ['^', '='] := by decide
        rw [this]
        simp [noRawAux, ih]
      · have : replEq (replCommaChar c) = [c] := by
          simp [replCommaChar, replEq, replEqChar, h1, h2]
        rw [this]
        simp only [List.cons_append, List.nil_append, noRawAux, Bool.and_eq_true]
        constructor
        · rw [if_neg (by tauto : ¬(c = ',' ∨ c = '='))]
        · exact ih _

theorem noRawAux_replDblSpace (l : List Char) (p : Bool)
    (h : noRawAux p l = true) : noRawAux p (replDblSpace l) = true := by
  induction l using replDblSpace.induct generalizing p with
  | case1 => exact h
  | case2 c => exact h
  | case3 c d rest hcd ih =>
    obtain ⟨rfl, rfl⟩ := hcd
    simp only [noRawAux, Bool.and_eq_true] at h
    have h2 := h.2.2
    rw [show ((' ' : Char) == '^') = false from rfl] at h2
    rw [replDblSpace, if_pos ⟨rfl, rfl⟩]
    simp only [noRawAux, Bool.and_eq_true]
    constructor
    · rw [if_neg (by decide : ¬((' ' : Char) = ',' ∨ (' ' : Char) = '='))]
    · exact noRawAux_mono (ih false h2) _
  | case4 c d rest hcd ih =>
    rw [replDblSpace, if_neg hcd]
    have h1 : (if c = ',' ∨ c = '=' then p else true) = true := by
      simp only [noRawAux, Bool.and_eq_true] at h
      exact h.1
    have h2 : noRawAux (c == '^') (d :: rest) = true := by
      simp only [noRawAux, Bool.and_eq_true] at h ⊢
      exact h.2
    simp only [noRawAux, Bool.and_eq_true]
    exact ⟨h1, ih _ h2⟩

theorem noRawAux_removeNl (l : List Char) (p : Bool)
    (h : noRawAux p l = true) : noRawAux p (removeNl l) = true := by
  induction l generalizing p with
  | nil => exact h
  | cons c rest ih =>
    simp only [noRawAux, Bool.and_eq_true] at h
    unfold removeNl
    split
    · rename_i hnl
      subst hnl
      have h2 := h.2
      rw [show (('\n' : Char) == '^') = false from rfl] at h2
      exact noRawAux_mono (ih false h2) p
    · simp only [noRawAux, Bool.and_eq_true]
      exact ⟨h.1, ih _ h.2⟩

theorem noRawAux_replDots3 (l : List Char) (p : Bool)
    (h : noRawAux p l = true) : noRawAux p (replDots3 l) = true := by
  induction l using replDots3.induct generalizing p with
  | case1 => exact h
  | case2 c => exact h
  | case3 c d => exact h
  | case4 c d e rest hcde ih =>
    obtain ⟨rfl, rfl, rfl⟩ := hcde
    simp only [noRawAux, Bool.and_eq_true] at h
    have h2 := h.2.2.2
    rw [show (('.' : Char) == '^') = false from rfl] at h2
    rw [replDots3, if_pos ⟨rfl, rfl, rfl⟩]
    simp only [noRawAux, Bool.and_eq_true]
    refine ⟨?_, ?_, ?_, ?_⟩
    · rw [if_neg (by decide : ¬(('â' : Char) = ',' ∨ ('â' : Char) = '='))]
    · rw [if_neg (by decide : ¬(('€' : Char) = ',' ∨ ('€' : Char) = '='))]
    · rw [if_neg (by decide : ¬(('¦' : Char) = ',' ∨ ('¦' : Char) = '='))]
    · exact noRawAux_mono (ih false h2) _
  | case5 c d e rest hcde ih =>
    rw [replDots3, if_neg hcde]
    have h1 : (if c = ',' ∨ c = '=' then p else true) = true := by
      simp only [noRawAux, Bool.and_eq_true] at h
      exact h.1
    have h2 : noRawAux (c == '^') (d :: e :: rest) = true := by
      simp only [noRawAux, Bool.and_eq_true] at h ⊢
      exact ⟨h.2.1, h.2.2⟩
    simp only [noRawAux, Bool.and_eq_true]
    exact ⟨h1, ih _ h2⟩

theorem joinMeta_single (k v : String) : joinMeta [(k, v)] = k ++ "=" ++ v := by
  simp [joinMeta, String.intercalate, String.intercalate.go]

/-- C2 (confirmed): every comma or equals sign in a sanitised value is
part of a caret escape, for both variants of `clean_string`; and the
`-m` argument for the single-field mapping `title ↦ s` is exactly
`title=` followed by the sanitised value, so the only separators it adds
are the encoder's own. -/
theorem encode_no_unescaped_separators : ∀ s : String,
    noRawAux false (clean_string s).data = true ∧
    noRawAux false (manga_clean_string s).data = true ∧
    joinMeta [("title", clean_string s)] = "title=" ++ clean_string s := by
  intro s
  refine ⟨?_, ?_, ?_⟩
  · show noRawAux false
      (replaceEllipsis (collapseWS (pyStrip (subSpecials s.data)))) = true
    unfold collapseWS pyStrip
    apply noRawAux_replaceEllipsis
    apply noRawAux_collapse
    apply noRawAux_dropTrailing
    apply noRawAux_dropWhileWS
    apply noRawAux_subSpecials
  · show noRawAux false
      (replDots3 (removeNl (replDblSpace (pyStrip (replEq (replComma s.data)))))) = true
    unfold pyStrip
    apply noRawAux_replDots3
    apply noRawAux_removeNl
    apply noRawAux_replDblSpace
    apply noRawAux_dropTrailing
    apply noRawAux_dropWhileWS
    apply noRawAux_replEq_replComma
  · rw [joinMeta_single]
    rw [show ("title" : String) ++ "=" = "title=" from rfl]

theorem getLast?_cons_of_ne {y : Char} {ys : List Char} (h : ys ≠ []) :
    (y :: ys).getLast? = ys.getLast? := by
  cases ys with
  | nil => exact absurd rfl h
  | cons z zs => rfl

theorem getLast?_some_ne_nil {l : List Char} {c : Char}
    (h : l.getLast? = some c) : l ≠ [] := by
  intro hnil
  subst hnil
  simp at h

theorem getLast?_of_ne_nil (l : List Char) (h : l ≠ []) :
    ∃ c, l.getLast? = some c := by
  induction l with
  | nil => exact absurd rfl h
  | cons a as ih =>
    cases as with
    | nil => exact ⟨a, rfl⟩
    | cons b bs =>
      obtain ⟨c, hc⟩ := ih (by simp)
      exact ⟨c, by rw [getLast?_cons_of_ne (by simp)]; exact hc⟩

theorem wsSpaceOnly_collapse (l : List Char) (b : Bool) :
    wsSpaceOnly (collapseAux b l) = true := by
  induction l generalizing b with
  | nil => rfl
  | cons c rest ih =>
    unfold collapseAux
    split
    · split
      · exact ih true
      · simp only [wsSpaceOnly, List.all_cons, Bool.and_eq_true]
        exact ⟨by decide, by simpa [wsSpaceOnly] using ih true⟩
    · rename_i hw
      simp only [Bool.not_eq_true] at hw
      simp only [wsSpaceOnly, List.all_cons, Bool.and_eq_true]
      exact ⟨by simp [hw], by simpa [wsSpaceOnly] using ih false⟩

theorem all_replaceEllipsis (pr : Char → Bool) (hd : pr '…' = true)
    (l : List Char) (h : l.all pr = true) :
    (replaceEllipsis l).all pr = true := by
  induction l using replaceEllipsis.induct with
  | case1 => exact h
  | case2 c => exact h
  | case3 c d => exact h
  | case4 c d e rest hcde ih =>
    obtain ⟨rfl, rfl, rfl⟩ := hcde
    simp only [List.all_cons, Bool.and_eq_true] at h
    rw [replaceEllipsis, if_pos ⟨rfl, rfl, rfl⟩]
    simp only [List.all_cons, Bool.and_eq_true]
    exact ⟨hd, ih h.2.2.2⟩
  | case5 c d e rest hcde ih =>
    simp only [List.all_cons, Bool.and_eq_true] at h
    rw [replaceEllipsis, if_neg hcde]
    simp only [List.all_cons, Bool.and_eq_true]
    refine ⟨h.1, ih ?_⟩
    simp only [List.all_cons, Bool.and_eq_true]
    exact ⟨h.2.1, h.2.2⟩

theorem noWSRunAux_collapse (l : List Char) (b : Bool) :
    noWSRunAux b (collapseAux b l) = true := by
  induction l generalizing b with
  | nil => rfl
  | cons c rest ih =>
    unfold collapseAux
    split
    · rename_i hw
      by_cases hb : b = true
      · subst hb
        exact ih true
      · simp only [Bool.not_eq_true] at hb
        subst hb
        simp only [if_neg (by simp : ¬(false = true))]
        simp only [noWSRunAux]
        rw [show isWS ' ' = true from rfl]
        simpa using ih true
    · rename_i hw
      simp only [Bool.not_eq_true] at hw
      simp only [noWSRunAux, hw]
      simpa using ih false

theorem noWSRunAux_replaceEllipsis (l : List Char) (p : Bool)
    (h : noWSRunAux p l = true) : noWSRunAux p (replaceEllipsis l) = true := by
  induction l using replaceEllipsis.induct generalizing p with
  | case1 => exact h
  | case2 c => exact h
  | case3 c d => exact h
  | case4 c d e rest hcde ih =>
    obtain ⟨rfl, rfl, rfl⟩ := hcde
    simp only [noWSRunAux, Bool.and_eq_true] at h
    rw [show isWS '.' = false from rfl] at h
    rw [replaceEllipsis, if_pos ⟨rfl, rfl, rfl⟩]
    simp only [noWSRunAux]
    rw [show isWS '…' = false from rfl]
    simpa using ih _ (by simpa using h.2.2.2)
  | case5 c d e rest hcde ih =>
    rw [replaceEllipsis, if_neg hcde]
    have h1 : (!(p && isWS c)) = true := by
      simp only [noWSRunAux, Bool.and_eq_true] at h
      exact h.1
    have h2 : noWSRunAux (isWS c) (d :: e :: rest) = true := by
      simp only [noWSRunAux, Bool.and_eq_true] at h ⊢
      exact ⟨h.2.1, h.2.2⟩
    simp only [noWSRunAux, Bool.and_eq_true]
    exact ⟨h1, ih _ h2⟩

theorem headNotWS_dropWhileWS (l : List Char) :
    headNotWS (l.dropWhile isWS) = true := by
  induction l with
  | nil => rfl
  | cons c rest ih =>
    simp only [List.dropWhile_cons]
    split
    · exact ih
    · rename_i hw
      simp only [Bool.not_eq_true] at hw
      simp [headNotWS, hw]

theorem headNotWS_dropTrailing (l : List Char)
    (h : headNotWS l = true) : headNotWS (dropTrailingWS l) = true := by
  cases l with
  | nil => rfl
  | cons c rest =>
    unfold dropTrailingWS
    split
    · rfl
    · exact h

theorem headNotWS_collapse (l : List Char)
    (h : headNotWS l = true) : headNotWS (collapseAux false l) = true := by
  cases l with
  | nil => rfl
  | cons c rest =>
    simp only [headNotWS, Bool.not_eq_true'] at h
    unfold collapseAux
    rw [h]
    simp [headNotWS, h]

theorem headNotWS_replaceEllipsis (l : List Char)
    (h : headNotWS l = true) : headNotWS (replaceEllipsis l) = true := by
  induction l using replaceEllipsis.induct with
  | case1 => exact h
  | case2 c => exact h
  | case3 c d => exact h
  | case4 c d e rest hcde ih =>
    obtain ⟨rfl, rfl, rfl⟩ := hcde
    rw [replaceEllipsis, if_pos ⟨rfl, rfl, rfl⟩]
    rfl
  | case5 c d e rest hcde ih =>
    rw [replaceEllipsis, if_neg hcde]
    exact h

theorem lastNotWS_dropTrailing (l : List Char) :
    lastNotWS (dropTrailingWS l) = true := by
  induction l with
  | nil => rfl
  | cons c rest ih =>
    unfold dropTrailingWS
    split
    · rfl
    · rename_i hcond
      by_cases hr : dropTrailingWS rest = []
      · have hc : isWS c = false := by
          by_contra hcc
          simp only [Bool.not_eq_false] at hcc
          exact hcond ⟨hr, hcc⟩
        rw [hr]
        simp [lastNotWS, hc]
      · rw [lastNotWS, getLast?_cons_of_ne hr]
        exact ih

theorem getLast?_collapse (l : List Char) (c : Char)
    (h : l.getLast? = some c) (hc : isWS c = false) :
    ∀ b, (collapseAux b l).getLast? = some c := by
  induction l with
  | nil => simp at h
  | cons x rest ih =>
    cases rest with
    | nil =>
      simp only [List.getLast?_singleton, Option.some.injEq] at h
      subst h
      intro b
      unfold collapseAux
      rw [hc]
      rfl
    | cons d rs =>
      rw [getLast?_cons_of_ne (by simp)] at h
      have ihx := ih h
      intro b
      unfold collapseAux
      split
      · split
        · exact ihx true
        · rw [getLast?_cons_of_ne (getLast?_some_ne_nil (ihx true))]
          exact ihx true
      · rw [getLast?_cons_of_ne (getLast?_some_ne_nil (ihx false))]
        exact ihx false

theorem getLast?_replaceEllipsis (l : List Char) (c : Char)
    (h : l.getLast? = some c) (hc : isWS c = false) :
    ∃ d, (replaceEllipsis l).getLast? = some d ∧ isWS d = false := by
  induction l using replaceEllipsis.induct with
  | case1 => simp at h
  | case2 x =>
    simp only [List.getLast?_singleton, Option.some.injEq] at h
    subst h
    exact ⟨x, rfl, hc⟩
  | case3 x y =>
    refine ⟨c, ?_, hc⟩
    show (x :: [y]).getLast? = some c
    exact h
  | case4 x y z rest hcde ih =>
    obtain ⟨rfl, rfl, rfl⟩ := hcde
    rw [replaceEllipsis, if_pos ⟨rfl, rfl, rfl⟩]
    cases hrest : rest with
    | nil =>
      subst hrest
      exact ⟨'…', rfl, rfl⟩
    | cons r rs =>
      subst hrest
      rw [getLast?_cons_of_ne (by simp), getLast?_cons_of_ne (by simp),
          getLast?_cons_of_ne (by simp)] at h
      obtain ⟨d, hd, hdw⟩ := ih h
      exact ⟨d, by rw [getLast?_cons_of_ne (getLast?_some_ne_nil hd)]; exact hd, hdw⟩
  | case5 x y z rest hcde ih =>
    rw [replaceEllipsis, if_neg hcde]
    rw [getLast?_cons_of_ne (by simp)] at h
    obtain ⟨d, hd, hdw⟩ := ih h
    exact ⟨d, by rw [getLast?_cons_of_ne (getLast?_some_ne_nil hd)]; exact hd, hdw⟩

theorem lastNotWS_collapse (l : List Char)
    (h : lastNotWS l = true) : lastNotWS (collapseAux false l) = true := by
  by_cases hl : l = []
  · subst hl
    rfl
  · obtain ⟨c, hc⟩ := getLast?_of_ne_nil l hl
    rw [lastNotWS, hc] at h
    simp only [Bool.not_eq_true'] at h
    rw [lastNotWS, getLast?_collapse l c hc h false]
    simp [h]

theorem lastNotWS_replaceEllipsis (l : List Char)
    (h : lastNotWS l = true) : lastNotWS (replaceEllipsis l) = true := by
  by_cases hl : l = []
  · subst hl
    rfl
  · obtain ⟨c, hc⟩ := getLast?_of_ne_nil l hl
    rw [lastNotWS, hc] at h
    simp only [Bool.not_eq_true'] at h
    obtain ⟨d, hd, hdw⟩ := getLast?_replaceEllipsis l c hc h
    rw [lastNotWS, hd]
    simp [hdw]

/-- C5 (amended): the cbz variant of `clean_string` produces output with
no run of two or more whitespace characters, with every whitespace
character a plain space, and with no leading or trailing whitespace. -/
theorem cbz_clean_whitespace_normalized : ∀ s : String,
    noWSRun (clean_string s).data = true ∧
    wsSpaceOnly (clean_string s).data = true ∧
    headNotWS (clean_string s).data = true ∧
    lastNotWS (clean_string s).data = true := by
  intro s
  show noWSRun (replaceEllipsis (collapseWS (pyStrip (subSpecials s.data)))) = true ∧ _
  refine ⟨?_, ?_, ?_, ?_⟩
  · exact noWSRunAux_replaceEllipsis _ _ (noWSRunAux_collapse _ false)
  · exact all_replaceEllipsis _ (by decide) _ (wsSpaceOnly_collapse _ false)
  · exact headNotWS_replaceEllipsis _ (headNotWS_collapse _
      (headNotWS_dropTrailing _ (headNotWS_dropWhileWS _)))
  · exact lastNotWS_replaceEllipsis _ (lastNotWS_collapse _
      (lastNotWS_dropTrailing _))

theorem all_of_sublist {pr : Char → Bool} {l1 l2 : List Char}
    (hs : l1.Sublist l2) (h : l2.all pr = true) : l1.all pr = true := by
  rw [List.all_eq_true] at h ⊢
  exact fun x hx => h x (hs.subset hx)

theorem dropTrailingWS_sublist (l : List Char) :
    (dropTrailingWS l).Sublist l := by
  induction l with
  | nil => exact List.Sublist.refl []
  | cons c rest ih =>
    unfold dropTrailingWS
    split
    · exact List.nil_sublist _
    · exact List.Sublist.cons₂ c ih

theorem all_collapse {pr : Char → Bool} (hsp : pr ' ' = true)
    (l : List Char) (b : Bool) (h : l.all pr = true) :
    (collapseAux b l).all pr = true := by
  induction l generalizing b with
  | nil => rfl
  | cons c rest ih =>
    simp only [List.all_cons, Bool.and_eq_true] at h
    unfold collapseAux
    split
    · split
      · exact ih true h.2
      · simp only [List.all_cons, Bool.and_eq_true]
        exact ⟨hsp, ih true h.2⟩
    · simp only [List.all_cons, Bool.and_eq_true]
      exact ⟨h.1, ih false h.2⟩

theorem subSpecials_all (l : List Char) (h : noSepChars l = true) :
    noSepNlChars (subSpecials l) = true := by
  induction l with
  | nil => rfl
  | cons c rest ih =>
    rw [noSepChars, List.all_cons, Bool.and_eq_true] at h
    have hpc := h.1
    simp only [Bool.and_eq_true, Bool.not_eq_true', beq_eq_false_iff_ne] at hpc
    have hc : c ≠ ',' := hpc.1
    have he : c ≠ '=' := hpc.2
    show noSepNlChars (replChar c ++ subSpecials rest) = true
    by_cases hn : c = '\n'
    · subst hn
      rw [show replChar '\n' = [' '] from rfl]
      simp only [List.cons_append, List.nil_append, noSepNlChars,
        List.all_cons, Bool.and_eq_true]
      exact ⟨by decide, by simpa [noSepNlChars] using ih h.2⟩
    · rw [show replChar c = [c] by simp [replChar, hc, he, hn]]
      simp only [List.cons_append, List.nil_append, noSepNlChars,
        List.all_cons, Bool.and_eq_true]
      exact ⟨by simp [hc, he, hn], by simpa [noSepNlChars] using ih h.2⟩

theorem replaceEllipsis_cons₃ (c d e : Char) (rest : List Char) :
    replaceEllipsis (c :: d :: e :: rest)
      = if c = '.' ∧ d = '.' ∧ e = '.' then '…' :: replaceEllipsis rest
        else c :: replaceEllipsis (d :: e :: rest) := by
  rw [replaceEllipsis]

theorem replaceEllipsis_cons_ne (c d e : Char) (rest : List Char)
    (h : ¬(c = '.' ∧ d = '.' ∧ e = '.')) :
    replaceEllipsis (c :: d :: e :: rest) = c :: replaceEllipsis (d :: e :: rest) := by
  rw [replaceEllipsis_cons₃, if_neg h]

theorem replaceEllipsis_cons_of_ne_dot {d : Char} (hd : d ≠ '.')
    (e : Char) (rest : List Char) :
    replaceEllipsis (d :: e :: rest) = d :: replaceEllipsis (e :: rest) := by
  cases rest with
  | nil => rfl
  | cons r rs => exact replaceEllipsis_cons_ne d e r rs (fun hh => hd hh.1)

theorem replaceEllipsis_cons_of_snd_ne_dot (d : Char) {e : Char}
    (he : e ≠ '.') (rest : List Char) :
    replaceEllipsis (d :: e :: rest) = d :: replaceEllipsis (e :: rest) := by
  cases rest with
  | nil => rfl
  | cons r rs => exact replaceEllipsis_cons_ne d e r rs (fun hh => he hh.2.1)

theorem subSpecials_id (l : List Char) (h : noSepNlChars l = true) :
    subSpecials l = l := by
  induction l with
  | nil => rfl
  | cons c rest ih =>
    rw [noSepNlChars, List.all_cons, Bool.and_eq_true] at h
    have hpc := h.1
    simp only [Bool.and_eq_true, Bool.not_eq_true', beq_eq_false_iff_ne] at hpc
    have hc : c ≠ ',' := hpc.1.1
    have he : c ≠ '=' := hpc.1.2
    have hn : c ≠ '\n' := hpc.2
    show replChar c ++ subSpecials rest = c :: rest
    rw [show replChar c = [c] by simp [replChar, hc, he, hn],
        ih (by simpa [noSepNlChars] using h.2)]
    rfl

theorem dropWhileWS_id (l : List Char) (h : headNotWS l = true) :
    l.dropWhile isWS = l := by
  cases l with
  | nil => rfl
  | cons c rest =>
    simp only [headNotWS, Bool.not_eq_true'] at h
    simp [List.dropWhile_cons, h]

theorem dropTrailingWS_id (l : List Char) (h : lastNotWS l = true) :
    dropTrailingWS l = l := by
  induction l with
  | nil => rfl
  | cons c rest ih =>
    cases rest with
    | nil =>
      simp only [lastNotWS, List.getLast?_singleton, Bool.not_eq_true'] at h
      unfold dropTrailingWS
      rw [if_neg (by simp [h])]
      rfl
    | cons d rs =>
      have h2 : lastNotWS (d :: rs) = true := by
        rw [lastNotWS] at h ⊢
        rw [getLast?_cons_of_ne (by simp)] at h
        exact h
      have ih2 := ih h2
      unfold dropTrailingWS
      rw [ih2]
      rw [if_neg (by simp)]

theorem collapse_id (l : List Char) (b : Bool)
    (hsp : wsSpaceOnly l = true) (h : noWSRunAux b l = true) :
    collapseAux b l = l := by
  induction l generalizing b with
  | nil => rfl
  | cons c rest ih =>
    simp only [wsSpaceOnly, List.all_cons, Bool.and_eq_true] at hsp
    simp only [noWSRunAux, Bool.and_eq_true] at h
    by_cases hw : isWS c = true
    · have hb : b = false := by
        rcases h with ⟨h1, _⟩
        by_contra hbb
        simp only [Bool.not_eq_false] at hbb
        subst hbb
        rw [hw] at h1
        simp at h1
      subst hb
      have hcsp : c = ' ' := by
        rcases hsp with ⟨h1, _⟩
        rw [hw] at h1
        simpa using h1
      subst hcsp
      unfold collapseAux
      rw [if_pos hw, if_neg (by simp)]
      rw [ih true (by simpa [wsSpaceOnly] using hsp.2) (by rw [hw] at h; exact h.2)]
    · unfold collapseAux
      rw [if_neg hw]
      simp only [Bool.not_eq_true] at hw
      rw [ih false (by simpa [wsSpaceOnly] using hsp.2) (by rw [hw] at h; exact h.2)]

theorem noTripleAux_mono {l : List Char} :
    ∀ {n m : Nat}, m ≤ n → noTripleAux n l = true → noTripleAux m l = true := by
  induction l with
  | nil => intro n m _ _; rfl
  | cons c rest ih =>
    intro n m hmn h
    unfold noTripleAux at h ⊢
    split at h
    · rename_i hdot
      rw [if_pos hdot]
      split at h
      · simp at h
      · rename_i hn2
        rw [if_neg (by omega)]
        exact ih (by omega) h
    · rename_i hdot
      rw [if_neg hdot]
      exact h

theorem noTripleAux_head {X : List Char} (h : X.head? ≠ some '.')
    (n m : Nat) : noTripleAux n X = noTripleAux m X := by
  cases X with
  | nil => rfl
  | cons c r =>
    have hc : c ≠ '.' := by
      intro hcc
      subst hcc
      exact h rfl
    unfold noTripleAux
    rw [if_neg hc, if_neg hc]

theorem replaceEllipsis_head_ne {e : Char} (he : e ≠ '.') (rest : List Char) :
    (replaceEllipsis (e :: rest)).head? = some e := by
  cases rest with
  | nil => rfl
  | cons x xs =>
    cases xs with
    | nil => rfl
    | cons y ys =>
      rw [replaceEllipsis, if_neg (fun hh => he hh.1)]
      rfl

theorem replaceEllipsis_id (l : List Char) (h : noTripleDot l = true) :
    replaceEllipsis l = l := by
  induction l using replaceEllipsis.induct with
  | case1 => rfl
  | case2 c => rfl
  | case3 c d => rfl
  | case4 c d e rest hcde ih =>
    obtain ⟨rfl, rfl, rfl⟩ := hcde
    exfalso
    simp [noTripleDot, noTripleAux] at h
  | case5 c d e rest hcde ih =>
    rw [replaceEllipsis, if_neg hcde]
    have h2 : noTripleDot (d :: e :: rest) = true := by
      rw [noTripleDot] at h ⊢
      unfold noTripleAux at h
      split at h
      · split at h
        · simp at h
        · exact noTripleAux_mono (by omega) h
      · exact h
    rw [ih h2]

theorem noTriple_replaceEllipsis (l : List Char) :
    noTripleDot (replaceEllipsis l) = true := by
  induction l using replaceEllipsis.induct with
  | case1 => rfl
  | case2 c =>
    by_cases hc : c = '.' <;> simp [replaceEllipsis, noTripleDot, noTripleAux, hc]
  | case3 c d =>
    by_cases hc : c = '.' <;> by_cases hd : d = '.' <;>
      simp [replaceEllipsis, noTripleDot, noTripleAux, hc, hd]
  | case4 c d e rest hcde ih =>
    obtain ⟨rfl, rfl, rfl⟩ := hcde
    rw [replaceEllipsis, if_pos ⟨rfl, rfl, rfl⟩]
    rw [noTripleDot] at ih ⊢
    unfold noTripleAux
    rw [if_neg (by decide : ¬('…' : Char) = '.')]
    exact ih
  | case5 c d e rest hcde ih =>
    rw [replaceEllipsis, if_neg hcde]
    rw [noTripleDot] at ih ⊢
    by_cases hc : c = '.'
    · subst hc
      unfold noTripleAux
      rw [if_pos rfl, if_neg (by omega)]
      by_cases hd : d = '.'
      · subst hd
        have he : e ≠ '.' := fun hee => hcde ⟨rfl, rfl, hee⟩
        rw [replaceEllipsis_cons_of_snd_ne_dot '.' he rest] at ih ⊢
        unfold noTripleAux at ih ⊢
        rw [if_pos rfl, if_neg (by omega)] at ih ⊢
        rw [noTripleAux_head (by rw [replaceEllipsis_head_ne he rest]; simp [he]) 2 1]
        exact ih
      · rw [replaceEllipsis_cons_of_ne_dot hd e rest] at ih ⊢
        unfold noTripleAux at ih ⊢
        rw [if_neg hd] at ih ⊢
        exact ih
    · unfold noTripleAux
      rw [if_neg hc]
      exact ih

/-- C4 (amended): `clean_string` is idempotent on inputs containing no
comma and no equals sign (cbz variant).  On inputs containing a comma or
an equals sign the escape is re-escaped, so idempotence fails (see the
counterexample), and the manga variant additionally fails on whitespace
runs of length three or more. -/
theorem clean_string_idempotent_on_sep_free (s : String)
    (hs : noSepChars s.data = true) :
    clean_string (clean_string s) = clean_string s := by
  have hA : noSepNlChars (subSpecials s.data) = true := subSpecials_all _ hs
  have hstrip : noSepNlChars (pyStrip (subSpecials s.data)) = true :=
    all_of_sublist ((dropTrailingWS_sublist _).trans (List.dropWhile_sublist _)) hA
  have hcol : noSepNlChars (collapseWS (pyStrip (subSpecials s.data))) = true :=
    all_collapse (by decide) _ false hstrip
  have ht : noSepNlChars (clean_string s).data = true :=
    all_replaceEllipsis _ (by decide) _ hcol
  have hhead : headNotWS (clean_string s).data = true :=
    headNotWS_replaceEllipsis _ (headNotWS_collapse _
      (headNotWS_dropTrailing _ (headNotWS_dropWhileWS _)))
  have hlast : lastNotWS (clean_string s).data = true :=
    lastNotWS_replaceEllipsis _ (lastNotWS_collapse _ (lastNotWS_dropTrailing _))
  have hws : wsSpaceOnly (clean_string s).data = true :=
    all_replaceEllipsis _ (by decide) _ (wsSpaceOnly_collapse _ false)
  have hrun : noWSRun (clean_string s).data = true :=
    noWSRunAux_replaceEllipsis _ _ (noWSRunAux_collapse _ false)
  have hnt : noTripleDot (clean_string s).data = true :=
    noTriple_replaceEllipsis _
  have hstep : clean_string (clean_string s)
      = ⟨replaceEllipsis (collapseWS (pyStrip (subSpecials (clean_string s).data)))⟩ :=
    rfl
  rw [hstep, subSpecials_id _ ht]
  rw [show pyStrip (clean_string s).data = (clean_string s).data by
        rw [pyStrip, dropWhileWS_id _ hhead, dropTrailingWS_id _ hlast]]
  rw [show collapseWS (clean_string s).data = (clean_string s).data from
        collapse_id _ false hws hrun]
  rw [replaceEllipsis_id _ hnt]

/-- C4 witness: a concrete comma-free, equals-free input on which the
idempotence theorem applies. -/
theorem clean_string_idempotent_witness :
    noSepChars ("a  b." : String).data = true ∧
    clean_string (clean_string "a  b.") = clean_string "a  b." :=
  ⟨by decide, clean_string_idempotent_on_sep_free "a  b." (by decide)⟩

theorem keyLE_refl (k : Option Nat) : keyLE k k = true := by
  cases k with
  | none => rfl
  | some n => simp [keyLE]

theorem filter_orderedInsert_key (k : Option Nat) (x : String) (l : List String)
    (hx : volume_sort_key x = k) :
    (List.orderedInsert cbzOrder x l).filter (fun y => decide (volume_sort_key y = k))
      = x :: l.filter (fun y => decide (volume_sort_key y = k)) := by
  induction l with
  | nil => simp [hx]
  | cons b t ih =>
    unfold List.orderedInsert
    split
    · simp [hx]
    · rename_i hxb
      have hb : ¬(volume_sort_key b = k) := by
        intro hbk
        apply hxb
        unfold cbzOrder
        rw [hx, hbk]
        exact keyLE_refl k
      simp only [List.filter_cons]
      rw [if_neg (by simpa using hb), if_neg (by simpa using hb)]
      exact ih

theorem filter_orderedInsert_nkey (k : Option Nat) (x : String) (l : List String)
    (hx : ¬(volume_sort_key x = k)) :
    (List.orderedInsert cbzOrder x l).filter (fun y => decide (volume_sort_key y = k))
      = l.filter (fun y => decide (volume_sort_key y = k)) := by
  induction l with
  | nil => simp [hx]
  | cons b t ih =>
    unfold List.orderedInsert
    split
    · simp only [List.filter_cons]
      rw [if_neg (by simpa using hx)]
    · simp only [List.filter_cons]
      by_cases hb : volume_sort_key b = k
      · rw [if_pos (by simpa using hb), if_pos (by simpa using hb), ih]
      · rw [if_neg (by simpa using hb), if_neg (by simpa using hb)]
        exact ih

theorem filter_insertionSort_key (k : Option Nat) (l : List String) :
    (List.insertionSort cbzOrder l).filter (fun y => decide (volume_sort_key y = k))
      = l.filter (fun y => decide (volume_sort_key y = k)) := by
  induction l with
  | nil => rfl
  | cons x t ih =>
    show (List.orderedInsert cbzOrder x (List.insertionSort cbzOrder t)).filter _ = _
    by_cases hx : volume_sort_key x = k
    · rw [filter_orderedInsert_key k x _ hx, ih]
      simp only [List.filter_cons]
      rw [if_pos (by simpa using hx)]
    · rw [filter_orderedInsert_nkey k x _ hx, ih]
      simp only [List.filter_cons]
      rw [if_neg (by simpa using hx)]

/-- C6 (confirmed): `process_cbz_files` filters the listing to `.cbz`
names and sorts them by the parsed volume number ascending, files without
a volume number last (`none` is the top of `keyLE`), with a stable sort
(elements of any fixed key keep their original relative order: the
filtered subsequence at each key value is unchanged); `"9"` and `"09"`
parse to the same key.  The concrete example of the claim is computed. -/
theorem process_order_sorted_stable : ∀ listing : List String,
    List.Sorted cbzOrder (process_order listing) ∧
    (process_order listing).Perm (listing.filter endsWithCbz) ∧
    (∀ k : Option Nat,
      (process_order listing).filter (fun y => decide (volume_sort_key y = k))
        = (listing.filter endsWithCbz).filter (fun y => decide (volume_sort_key y = k))) ∧
    volume_sort_key "a v9.cbz" = some 9 ∧
    volume_sort_key "b v09.cbz" = some 9 ∧
    volume_sort_key "x.cbz" = none ∧
    (∀ n : Nat, keyLE (some n) none = true ∧ keyLE none (some n) = false) ∧
    process_order ["a v3.cbz", "b v1.cbz", "c v02.cbz", "x.cbz"]
      = ["b v1.cbz", "c v02.cbz", "a v3.cbz", "x.cbz"] := by
  intro listing
  refine ⟨List.sorted_insertionSort cbzOrder _, List.perm_insertionSort cbzOrder _,
    fun k => filter_insertionSort_key k _, by decide, by decide, by decide,
    fun n => ⟨rfl, rfl⟩, by decide⟩

example : ("year" : String) ≠ "month" := by simp
example : ¬(("year" : String) = "title") := by simp

theorem checkDate_error {lo hi : Nat} {v : String} (hv : v ≠ "")
    (hinv : dateFieldValid lo hi v = false) :
    checkDate lo hi v = Except.error () := by
  unfold checkDate
  rw [if_neg hv]
  unfold dateFieldValid at hinv
  cases hp : parseNat v.data with
  | none => rfl
  | some n =>
    rw [hp] at hinv
    simp only [decide_eq_false_iff_not] at hinv
    simp [hinv]

theorem mangaCheckDate_none {lo hi : Nat} {v : String} (hv : v ≠ "")
    (hinv : dateFieldValid lo hi v = false) :
    mangaCheckDate lo hi v = none := by
  unfold mangaCheckDate
  rw [if_neg hv]
  unfold dateFieldValid at hinv
  cases hp : parseNat v.data with
  | none => rfl
  | some n =>
    rw [hp] at hinv
    simp only [decide_eq_false_iff_not] at hinv
    simp [hinv]

/-- C7 (amended): a non-numeric or out-of-range year, month or day is
rejected and no metadata mapping is produced for the file — but the field
is not re-prompted: the cbz variant's `get_metadata_input` raises
`ValueError` (its metadata entry aborts with an error, uncaught by its
callers), and the manga variant prints an error and returns `None`, after
which the file is skipped. -/
theorem invalid_date_rejected_aborts (y m d t c : String)
    (h : (y ≠ "" ∧ dateFieldValid 1900 2100 y = false) ∨
         (m ≠ "" ∧ dateFieldValid 1 12 m = false) ∨
         (d ≠ "" ∧ dateFieldValid 1 31 d = false)) :
    cbz_get_metadata_input y m d t c = Except.error () ∧
    manga_get_metadata_input y m d t c = none := by
  rcases h with ⟨hy, hyv⟩ | ⟨hm, hmv⟩ | ⟨hd, hdv⟩
  · constructor
    · unfold cbz_get_metadata_input
      rw [checkDate_error hy hyv]
    · unfold manga_get_metadata_input
      rw [mangaCheckDate_none hy hyv]
  · constructor
    · unfold cbz_get_metadata_input
      cases hy : checkDate 1900 2100 y with
      | error e => cases e; rfl
      | ok ry => rw [checkDate_error hm hmv]
    · unfold manga_get_metadata_input
      cases hy : mangaCheckDate 1900 2100 y with
      | none => rfl
      | some ry => rw [mangaCheckDate_none hm hmv]
  · constructor
    · unfold cbz_get_metadata_input
      cases hy : checkDate 1900 2100 y with
      | error e => cases e; rfl
      | ok ry =>
        cases hm : checkDate 1 12 m with
        | error e => cases e; rfl
        | ok rm => rw [checkDate_error hd hdv]
    · unfold manga_get_metadata_input
      cases hy : mangaCheckDate 1900 2100 y with
      | none => rfl
      | some ry =>
        cases hm : mangaCheckDate 1 12 m with
        | none => rfl
        | some rm => rw [mangaCheckDate_none hd hdv]

/-- C7 witness: the boundary year 1899 is non-empty and invalid, and the
theorem applies, showing both variants reject it without producing any
metadata. -/
theorem invalid_date_rejected_witness :
    ((("1899" : String) ≠ "" ∧ dateFieldValid 1900 2100 "1899" = false) ∨
     ((("" : String)) ≠ "" ∧ dateFieldValid 1 12 "" = false) ∨
     ((("" : String)) ≠ "" ∧ dateFieldValid 1 31 "" = false)) ∧
    cbz_get_metadata_input "1899" "" "" "t" "" = Except.error () ∧
    manga_get_metadata_input "1899" "" "" "t" "" = none :=
  ⟨Or.inl ⟨by decide, by decide⟩,
   invalid_date_rejected_aborts "1899" "" "" "t" "" (Or.inl ⟨by decide, by decide⟩)⟩

theorem checkDate_ok_some {lo hi : Nat} {v : String} {n : Nat}
    (h : checkDate lo hi v = Except.ok (some n)) :
    lo ≤ n ∧ n ≤ hi ∧ v ≠ "" := by
  unfold checkDate at h
  by_cases hv : v = ""
  · rw [if_pos hv] at h
    simp at h
  · rw [if_neg hv] at h
    cases hp : parseNat v.data with
    | none =>
      rw [hp] at h
      simp at h
    | some w =>
      rw [hp] at h
      by_cases hb : lo ≤ w ∧ w ≤ hi
      · simp [hb] at h
        subst h
        exact ⟨hb.1, hb.2, hv⟩
      · simp [hb] at h

theorem mem_dateEntry {name key v : String} {r : Option Nat}
    (h : (key, v) ∈ dateEntry name r) :
    key = name ∧ ∃ n, r = some n ∧ v = toString n := by
  cases r with
  | none => simp [dateEntry] at h
  | some n =>
    simp [dateEntry] at h
    exact ⟨h.1, n, rfl, h.2⟩

theorem mem_titleEntries {key v t : String}
    (h : (key, v) ∈ (if t = "" then []
      else ("title", clean_string t) ::
        (if extract_volume_number t = "" then []
         else [("volume", extract_volume_number t)]))) :
    (key = "title" ∨ key = "volume") ∧ t ≠ "" := by
  by_cases ht : t = ""
  · simp [ht] at h
  · rw [if_neg ht] at h
    refine ⟨?_, ht⟩
    rcases List.mem_cons.1 h with h1 | h2
    · rw [Prod.ext_iff] at h1
      exact Or.inl h1.1
    · by_cases hx : extract_volume_number t = ""
      · simp [hx] at h2
      · rw [if_neg hx] at h2
        simp at h2
        exact Or.inr h2.1

theorem mem_commentEntry {key v c : String}
    (h : (key, v) ∈ (if c = "" then [] else [("comments", clean_string c)])) :
    key = "comments" ∧ c ≠ "" := by
  by_cases hc : c = ""
  · simp [hc] at h
  · rw [if_neg hc] at h
    simp at h
    exact ⟨h.1, hc⟩

/-- C9 (amended): in the mapping produced by `cbz_tagging`'s
`get_metadata_input`, `year`/`month`/`day` are present only with numeric
values within range (year 1900-2100, month 1-12, day 1-31, serialised
via `str(int(...))`), and every key is present only because the
corresponding raw prompt input was non-empty.  (The stronger claim that
the serialised string has no empty-valued key is false: a whitespace-only
title sanitises to an empty value, and `manga_dir_tagging.process_dir`
always emits its full template with empty values — see the
counterexample.) -/
theorem metadata_invariant_cbz (y m d t c : String) (l : List (String × String))
    (h : cbz_get_metadata_input y m d t c = Except.ok l) :
    (∀ v, ("year", v) ∈ l → ∃ n, v = toString n ∧ 1900 ≤ n ∧ n ≤ 2100 ∧ y ≠ "") ∧
    (∀ v, ("month", v) ∈ l → ∃ n, v = toString n ∧ 1 ≤ n ∧ n ≤ 12 ∧ m ≠ "") ∧
    (∀ v, ("day", v) ∈ l → ∃ n, v = toString n ∧ 1 ≤ n ∧ n ≤ 31 ∧ d ≠ "") ∧
    (∀ v, ("title", v) ∈ l → t ≠ "") ∧
    (∀ v, ("volume", v) ∈ l → t ≠ "") ∧
    (∀ v, ("comments", v) ∈ l → c ≠ "") := by
  unfold cbz_get_metadata_input at h
  cases hy : checkDate 1900 2100 y with
  | error e => simp [hy] at h
  | ok ry =>
  cases hm : checkDate 1 12 m with
  | error e => simp [hy, hm] at h
  | ok rm =>
  cases hd : checkDate 1 31 d with
  | error e => simp [hy, hm, hd] at h
  | ok rd =>
  rw [hy, hm, hd] at h
  simp only [Except.ok.injEq] at h
  subst h
  refine ⟨?_, ?_, ?_, ?_, ?_, ?_⟩
  · intro v hv
    simp only [List.mem_append] at hv
    rcases hv with ((((h1 | h2) | h3) | h4) | h5)
    · obtain ⟨-, n, hrn, hvn⟩ := mem_dateEntry h1
      subst hrn
      obtain ⟨hb1, hb2, hne⟩ := checkDate_ok_some hy
      exact ⟨n, hvn, hb1, hb2, hne⟩
    · exact absurd (mem_dateEntry h2).1 (by simp)
    · exact absurd (mem_dateEntry h3).1 (by simp)
    · rcases (mem_titleEntries h4).1 with h | h <;> simp at h
    · exact absurd (mem_commentEntry h5).1 (by simp)
  · intro v hv
    simp only [List.mem_append] at hv
    rcases hv with ((((h1 | h2) | h3) | h4) | h5)
    · exact absurd (mem_dateEntry h1).1 (by simp)
    · obtain ⟨-, n, hrn, hvn⟩ := mem_dateEntry h2
      subst hrn
      obtain ⟨hb1, hb2, hne⟩ := checkDate_ok_some hm
      exact ⟨n, hvn, hb1, hb2, hne⟩
    · exact absurd (mem_dateEntry h3).1 (by simp)
    · rcases (mem_titleEntries h4).1 with h | h <;> simp at h
    · exact absurd (mem_commentEntry h5).1 (by simp)
  · intro v hv
    simp only [List.mem_append] at hv
    rcases hv with ((((h1 | h2) | h3) | h4) | h5)
    · exact absurd (mem_dateEntry h1).1 (by simp)
    · exact absurd (mem_dateEntry h2).1 (by simp)
    · obtain ⟨-, n, hrn, hvn⟩ := mem_dateEntry h3
      subst hrn
      obtain ⟨hb1, hb2, hne⟩ := checkDate_ok_some hd
      exact ⟨n, hvn, hb1, hb2, hne⟩
    · rcases (mem_titleEntries h4).1 with h | h <;> simp at h
    · exact absurd (mem_commentEntry h5).1 (by simp)
  · intro v hv
    simp only [List.mem_append] at hv
    rcases hv with ((((h1 | h2) | h3) | h4) | h5)
    · exact absurd (mem_dateEntry h1).1 (by simp)
    · exact absurd (mem_dateEntry h2).1 (by simp)
    · exact absurd (mem_dateEntry h3).1 (by simp)
    · exact (mem_titleEntries h4).2
    · exact absurd (mem_commentEntry h5).1 (by simp)
  · intro v hv
    simp only [List.mem_append] at hv
    rcases hv with ((((h1 | h2) | h3) | h4) | h5)
    · exact absurd (mem_dateEntry h1).1 (by simp)
    · exact absurd (mem_dateEntry h2).1 (by simp)
    · exact absurd (mem_dateEntry h3).1 (by simp)
    · exact (mem_titleEntries h4).2
    · exact absurd (mem_commentEntry h5).1 (by simp)
  · intro v hv
    simp only [List.mem_append] at hv
    rcases hv with ((((h1 | h2) | h3) | h4) | h5)
    · exact absurd (mem_dateEntry h1).1 (by simp)
    · exact absurd (mem_dateEntry h2).1 (by simp)
    · exact absurd (mem_dateEntry h3).1 (by simp)
    · rcases (mem_titleEntries h4).1 with h | h <;> simp at h
    · exact (mem_commentEntry h5).2

/-- C9 witness: the invariant theorem applied to a concrete run. -/
theorem metadata_invariant_cbz_witness :
    (∀ v, ("year", v) ∈ [("year", "2021"), ("title", "Vol. 3"), ("volume", "3")] →
      ∃ n, v = toString n ∧ 1900 ≤ n ∧ n ≤ 2100 ∧ ("2021" : String) ≠ "") ∧
    (∀ v, ("title", v) ∈ [("year", "2021"), ("title", "Vol. 3"), ("volume", "3")] →
      ("Vol. 3" : String) ≠ "") :=
  ⟨(metadata_invariant_cbz "2021" "" "" "Vol. 3" "" _ rfl).1,
   (metadata_invariant_cbz "2021" "" "" "Vol. 3" "" _ rfl).2.2.2.1⟩

theorem stripCI_sound {ps : List (Char × Char)} {l r : List Char}
    (h : stripCI ps l = some r) : ∃ w, l = w ++ r ∧ CIWord w ps := by
  induction ps generalizing l with
  | nil =>
    refine ⟨[], ?_, List.Forall₂.nil⟩
    simpa [stripCI] using h
  | cons ab ps ih =>
    cases l with
    | nil => simp [stripCI] at h
    | cons c cs =>
      unfold stripCI at h
      split at h
      · rename_i hc
        obtain ⟨w, hcs, hw⟩ := ih h
        exact ⟨c :: w, by simp [hcs], List.Forall₂.cons hc hw⟩
      · simp at h

theorem stripCI_complete {ps : List (Char × Char)} {w : List Char}
    (hw : CIWord w ps) (r : List Char) : stripCI ps (w ++ r) = some r := by
  induction hw with
  | nil => rfl
  | @cons a b l₁ l₂ hc htail ih =>
    show stripCI (b :: l₂) (a :: (l₁ ++ r)) = some r
    unfold stripCI
    rw [if_pos hc]
    exact ih

theorem digitsOf_eq_ite (r : List Char) :
    digitsOf r = if r.takeWhile Char.isDigit = [] then none
      else some (r.takeWhile Char.isDigit) := rfl

theorem digitsOf_sound {r ds : List Char} (h : digitsOf r = some ds) :
    r = ds ++ r.dropWhile Char.isDigit ∧ DigitRun ds ∧
      ∀ c, (r.dropWhile Char.isDigit).head? = some c → Char.isDigit c = false := by
  rw [digitsOf_eq_ite] at h
  split at h
  · simp at h
  · rename_i hne
    simp only [Option.some.injEq] at h
    subst h
    refine ⟨(List.takeWhile_append_dropWhile Char.isDigit r).symm,
      ⟨hne, fun c hc => List.mem_takeWhile_imp hc⟩, ?_⟩
    intro c hc
    have := List.head?_dropWhile_not Char.isDigit r
    rw [hc] at this
    simpa using this

theorem digitsOf_complete {ds : List Char} (hds : DigitRun ds)
    (post : List Char) : digitsOf (ds ++ post) ≠ none := by
  obtain ⟨hne, hall⟩ := hds
  cases ds with
  | nil => exact absurd rfl hne
  | cons d ds' =>
    rw [List.cons_append, digitsOf_eq_ite, List.takeWhile_cons,
        if_pos (hall d (by simp))]
    simp

theorem CIWord_single {w : List Char} {ab : Char × Char}
    (h : CIWord w [ab]) : ∃ v, w = [v] ∧ (v = ab.1 ∨ v = ab.2) := by
  cases h with
  | cons hc htail =>
    rename_i c w'
    cases htail
    exact ⟨c, rfl, hc⟩

theorem cbzVAlt_sound {l ds : List Char} (h : cbzVAlt l = some ds) :
    ∃ v post, l = (v :: ds) ++ post ∧ (v = 'v' ∨ v = 'V') ∧ DigitRun ds ∧
      ∀ c, post.head? = some c → Char.isDigit c = false := by
  unfold cbzVAlt at h
  split at h
  · rename_i r heq
    obtain ⟨w, hl, hw⟩ := stripCI_sound heq
    obtain ⟨v, rfl, hv⟩ := CIWord_single hw
    obtain ⟨hr, hds, hpost⟩ := digitsOf_sound h
    refine ⟨v, r.dropWhile Char.isDigit, ?_, hv, hds, hpost⟩
    conv_lhs => rw [hl, hr]
    simp
  · simp at h

theorem cbzVolumeAlt_sound {l ds : List Char} (h : cbzVolumeAlt l = some ds) :
    ∃ w post, l = (w ++ ' ' :: ds) ++ post ∧ CIWord w patVolume ∧ DigitRun ds ∧
      ∀ c, post.head? = some c → Char.isDigit c = false := by
  unfold cbzVolumeAlt at h
  split at h
  · rename_i r heq
    cases r with
    | nil => simp at h
    | cons c r2 =>
      simp only [] at h
      split at h
      · rename_i hc
        subst hc
        obtain ⟨w, hl, hw⟩ := stripCI_sound heq
        obtain ⟨hr2, hds, hpost⟩ := digitsOf_sound h
        refine ⟨w, r2.dropWhile Char.isDigit, ?_, hw, hds, hpost⟩
        conv_lhs => rw [hl, hr2]
        simp
      · simp at h
  · simp at h

theorem cbzVolDotAlt_sound {l ds : List Char} (h : cbzVolDotAlt l = some ds) :
    ∃ w post, (l = (w ++ ' ' :: ds) ++ post ∨ l = (w ++ '.' :: ' ' :: ds) ++ post) ∧
      CIWord w patVol ∧ DigitRun ds ∧
      ∀ c, post.head? = some c → Char.isDigit c = false := by
  unfold cbzVolDotAlt at h
  split at h
  · rename_i r heq
    cases r with
    | nil => simp at h
    | cons c r2 =>
      simp only [] at h
      split at h
      · rename_i hc
        subst hc
        cases r2 with
        | nil => simp at h
        | cons c2 r3 =>
          simp only [] at h
          split at h
          · rename_i hc2
            subst hc2
            obtain ⟨w, hl, hw⟩ := stripCI_sound heq
            obtain ⟨hr3, hds, hpost⟩ := digitsOf_sound h
            refine ⟨w, r3.dropWhile Char.isDigit, Or.inr ?_, hw, hds, hpost⟩
            conv_lhs => rw [hl, hr3]
            simp
          · simp at h
      · rename_i hcdot
        split at h
        · rename_i hc
          subst hc
          obtain ⟨w, hl, hw⟩ := stripCI_sound heq
          obtain ⟨hr2, hds, hpost⟩ := digitsOf_sound h
          refine ⟨w, r2.dropWhile Char.isDigit, Or.inl ?_, hw, hds, hpost⟩
          conv_lhs => rw [hl, hr2]
          simp
        · simp at h
  · simp at h

theorem cbzHashAlt_sound {l ds : List Char} (h : cbzHashAlt l = some ds) :
    ∃ post, l = ('#' :: ds) ++ post ∧ DigitRun ds ∧
      ∀ c, post.head? = some c → Char.isDigit c = false := by
  unfold cbzHashAlt at h
  split at h
  · rename_i c r
    split at h
    · rename_i hc
      subst hc
      obtain ⟨hr, hds, hpost⟩ := digitsOf_sound h
      refine ⟨r.dropWhile Char.isDigit, ?_, hds, hpost⟩
      conv_lhs => rw [hr]
      simp
    · simp at h
  · simp at h

theorem cbzVAlt_complete {v : Char} {ds : List Char} (post : List Char)
    (hv : v = 'v' ∨ v = 'V') (hds : DigitRun ds) :
    cbzVAlt ((v :: ds) ++ post) ≠ none := by
  unfold cbzVAlt
  have hw : CIWord [v] patV := List.Forall₂.cons hv List.Forall₂.nil
  have hst : stripCI patV ((v :: ds) ++ post) = some (ds ++ post) := by
    have := stripCI_complete hw (ds ++ post)
    simpa using this
  rw [hst]
  exact digitsOf_complete hds post

theorem cbzVolumeAlt_complete {w ds : List Char} (post : List Char)
    (hw : CIWord w patVolume) (hds : DigitRun ds) :
    cbzVolumeAlt ((w ++ ' ' :: ds) ++ post) ≠ none := by
  unfold cbzVolumeAlt
  have hst : stripCI patVolume ((w ++ ' ' :: ds) ++ post)
      = some (' ' :: (ds ++ post)) := by
    have := stripCI_complete hw (' ' :: (ds ++ post))
    rw [show (w ++ ' ' :: ds) ++ post = w ++ (' ' :: (ds ++ post)) by simp]
    exact this
  rw [hst]
  simpa using digitsOf_complete hds post

theorem cbzVolDotAlt_complete_space {w ds : List Char} (post : List Char)
    (hw : CIWord w patVol) (hds : DigitRun ds) :
    cbzVolDotAlt ((w ++ ' ' :: ds) ++ post) ≠ none := by
  unfold cbzVolDotAlt
  have hst : stripCI patVol ((w ++ ' ' :: ds) ++ post)
      = some (' ' :: (ds ++ post)) := by
    have := stripCI_complete hw (' ' :: (ds ++ post))
    rw [show (w ++ ' ' :: ds) ++ post = w ++ (' ' :: (ds ++ post)) by simp]
    exact this
  rw [hst]
  simpa using digitsOf_complete hds post

theorem cbzVolDotAlt_complete_dot {w ds : List Char} (post : List Char)
    (hw : CIWord w patVol) (hds : DigitRun ds) :
    cbzVolDotAlt ((w ++ '.' :: ' ' :: ds) ++ post) ≠ none := by
  unfold cbzVolDotAlt
  have hst : stripCI patVol ((w ++ '.' :: ' ' :: ds) ++ post)
      = some ('.' :: ' ' :: (ds ++ post)) := by
    have := stripCI_complete hw ('.' :: ' ' :: (ds ++ post))
    rw [show (w ++ '.' :: ' ' :: ds) ++ post = w ++ ('.' :: ' ' :: (ds ++ post)) by simp]
    exact this
  rw [hst]
  simpa using digitsOf_complete hds post

theorem cbzHashAlt_complete {ds : List Char} (post : List Char)
    (hds : DigitRun ds) : cbzHashAlt (('#' :: ds) ++ post) ≠ none := by
  unfold cbzHashAlt
  simpa using digitsOf_complete hds post

theorem cbzMatchAt_sound {l ds : List Char} (h : cbzMatchAt l = some ds) :
    ∃ chunk post, l = chunk ++ post ∧ CbzChunk chunk ds ∧ DigitRun ds ∧
      ∀ c, post.head? = some c → Char.isDigit c = false := by
  unfold cbzMatchAt at h
  split at h
  · rename_i ds1 heq
    simp only [Option.some.injEq] at h
    subst h
    obtain ⟨v, post, hl, hv, hds, hpost⟩ := cbzVAlt_sound heq
    exact ⟨v :: ds1, post, hl,
      Or.inl ⟨v, List.Forall₂.cons hv List.Forall₂.nil, rfl⟩, hds, hpost⟩
  · rename_i heqV
    split at h
    · rename_i ds1 heq
      simp only [Option.some.injEq] at h
      subst h
      obtain ⟨w, post, hl, hw, hds, hpost⟩ := cbzVolumeAlt_sound heq
      exact ⟨w ++ ' ' :: ds1, post, hl, Or.inr (Or.inl ⟨w, hw, rfl⟩), hds, hpost⟩
    · rename_i heqVol
      split at h
      · rename_i ds1 heq
        simp only [Option.some.injEq] at h
        subst h
        obtain ⟨w, post, hor, hw, hds, hpost⟩ := cbzVolDotAlt_sound heq
        rcases hor with hl | hl
        · exact ⟨w ++ ' ' :: ds1, post, hl,
            Or.inr (Or.inr (Or.inl ⟨w, hw, Or.inl rfl⟩)), hds, hpost⟩
        · exact ⟨w ++ '.' :: ' ' :: ds1, post, hl,
            Or.inr (Or.inr (Or.inl ⟨w, hw, Or.inr rfl⟩)), hds, hpost⟩
      · obtain ⟨post, hl, hds, hpost⟩ := cbzHashAlt_sound h
        exact ⟨'#' :: ds, post, hl, Or.inr (Or.inr (Or.inr rfl)), hds, hpost⟩

theorem cbzMatchAt_none {l : List Char} (h : cbzMatchAt l = none) :
    cbzVAlt l = none ∧ cbzVolumeAlt l = none ∧ cbzVolDotAlt l = none ∧
      cbzHashAlt l = none := by
  unfold cbzMatchAt at h
  split at h
  · simp at h
  · rename_i heqV
    split at h
    · simp at h
    · rename_i heqVol
      split at h
      · simp at h
      · rename_i heqVD
        exact ⟨heqV, heqVol, heqVD, h⟩

theorem cbzMatchAt_of_chunk {chunk ds : List Char} (post : List Char)
    (hc : CbzChunk chunk ds) (hds : DigitRun ds) :
    cbzMatchAt (chunk ++ post) ≠ none := by
  intro hnone
  obtain ⟨h1, h2, h3, h4⟩ := cbzMatchAt_none hnone
  rcases hc with ⟨v, hw, rfl⟩ | ⟨w, hw, rfl⟩ | ⟨w, hw, hor⟩ | rfl
  · obtain ⟨v', hveq, hv⟩ := CIWord_single hw
    simp only [List.cons.injEq, and_true] at hveq
    subst hveq
    exact cbzVAlt_complete post hv hds h1
  · exact cbzVolumeAlt_complete post hw hds h2
  · rcases hor with rfl | rfl
    · exact cbzVolDotAlt_complete_space post hw hds h3
    · exact cbzVolDotAlt_complete_dot post hw hds h3
  · exact cbzHashAlt_complete post hds h4

theorem cbzSearch_sound {l ds : List Char} (h : cbzSearch l = some ds) :
    ∃ pre suf, l = pre ++ suf ∧ cbzMatchAt suf = some ds := by
  induction l with
  | nil => simp [cbzSearch] at h
  | cons c rest ih =>
    unfold cbzSearch at h
    split at h
    · rename_i ds1 heq
      simp only [Option.some.injEq] at h
      subst h
      exact ⟨[], c :: rest, rfl, heq⟩
    · obtain ⟨pre, suf, hrest, hm⟩ := ih h
      exact ⟨c :: pre, suf, by simp [hrest], hm⟩

theorem cbzSearch_ne_none (pre suf : List Char) (h : cbzMatchAt suf ≠ none) :
    cbzSearch (pre ++ suf) ≠ none := by
  induction pre with
  | nil =>
    cases suf with
    | nil => exact absurd (by decide) h
    | cons c r =>
      show cbzSearch (c :: r) ≠ none
      unfold cbzSearch
      split
      · simp
      · rename_i heq
        exact absurd heq h
  | cons c pre ih =>
    show cbzSearch (c :: (pre ++ suf)) ≠ none
    unfold cbzSearch
    split
    · simp
    · exact ih

theorem mangaVAlt_eq : mangaVAlt = cbzVAlt := rfl

theorem mangaHashAlt_eq : mangaHashAlt = cbzHashAlt := rfl

theorem digit_ne_dot {c : Char} (h : Char.isDigit c = true) : c ≠ '.' := by
  intro hc
  subst hc
  simp at h

theorem mangaVolumeAlt_sound {l ds : List Char} (h : mangaVolumeAlt l = some ds) :
    ∃ w post, l = (w ++ ds) ++ post ∧ CIWord w patVolume ∧ DigitRun ds ∧
      ∀ c, post.head? = some c → Char.isDigit c = false := by
  unfold mangaVolumeAlt at h
  split at h
  · rename_i r heq
    obtain ⟨w, hl, hw⟩ := stripCI_sound heq
    obtain ⟨hr, hds, hpost⟩ := digitsOf_sound h
    refine ⟨w, r.dropWhile Char.isDigit, ?_, hw, hds, hpost⟩
    conv_lhs => rw [hl, hr]
    simp
  · simp at h

theorem mangaVolDotAlt_sound {l ds : List Char} (h : mangaVolDotAlt l = some ds) :
    ∃ w post, (l = (w ++ ds) ++ post ∨ l = (w ++ '.' :: ds) ++ post) ∧
      CIWord w patVol ∧ DigitRun ds ∧
      ∀ c, post.head? = some c → Char.isDigit c = false := by
  unfold mangaVolDotAlt at h
  split at h
  · rename_i r heq
    cases r with
    | nil => simp at h
    | cons c r2 =>
      simp only [] at h
      split at h
      · rename_i hc
        subst hc
        obtain ⟨w, hl, hw⟩ := stripCI_sound heq
        obtain ⟨hr2, hds, hpost⟩ := digitsOf_sound h
        refine ⟨w, r2.dropWhile Char.isDigit, Or.inr ?_, hw, hds, hpost⟩
        conv_lhs => rw [hl, hr2]
        simp
      · obtain ⟨w, hl, hw⟩ := stripCI_sound heq
        obtain ⟨hr, hds, hpost⟩ := digitsOf_sound h
        refine ⟨w, (c :: r2).dropWhile Char.isDigit, Or.inl ?_, hw, hds, hpost⟩
        conv_lhs => rw [hl, hr]
        simp
  · simp at h

theorem mangaVolumeAlt_complete {w ds : List Char} (post : List Char)
    (hw : CIWord w patVolume) (hds : DigitRun ds) :
    mangaVolumeAlt ((w ++ ds) ++ post) ≠ none := by
  unfold mangaVolumeAlt
  have hst : stripCI patVolume ((w ++ ds) ++ post) = some (ds ++ post) := by
    have := stripCI_complete hw (ds ++ post)
    rw [show (w ++ ds) ++ post = w ++ (ds ++ post) by simp]
    exact this
  rw [hst]
  exact digitsOf_complete hds post

theorem mangaVolDotAlt_complete_plain {w ds : List Char} (post : List Char)
    (hw : CIWord w patVol) (hds : DigitRun ds) :
    mangaVolDotAlt ((w ++ ds) ++ post) ≠ none := by
  unfold mangaVolDotAlt
  have hst : stripCI patVol ((w ++ ds) ++ post) = some (ds ++ post) := by
    have := stripCI_complete hw (ds ++ post)
    rw [show (w ++ ds) ++ post = w ++ (ds ++ post) by simp]
    exact this
  rw [hst]
  obtain ⟨hne, hall⟩ := hds
  cases ds with
  | nil => exact absurd rfl hne
  | cons d ds₁ =>
    have hdne : d ≠ '.' := digit_ne_dot (hall d (by simp))
    simpa [hdne] using digitsOf_complete ⟨hne, hall⟩ post

theorem mangaVolDotAlt_complete_dot {w ds : List Char} (post : List Char)
    (hw : CIWord w patVol) (hds : DigitRun ds) :
    mangaVolDotAlt ((w ++ '.' :: ds) ++ post) ≠ none := by
  unfold mangaVolDotAlt
  have hst : stripCI patVol ((w ++ '.' :: ds) ++ post)
      = some ('.' :: (ds ++ post)) := by
    have := stripCI_complete hw ('.' :: (ds ++ post))
    rw [show (w ++ '.' :: ds) ++ post = w ++ ('.' :: (ds ++ post)) by simp]
    exact this
  rw [hst]
  simpa using digitsOf_complete hds post

theorem mangaMatchAt_sound {l ds : List Char} (h : mangaMatchAt l = some ds) :
    ∃ chunk post, l = chunk ++ post ∧ MangaChunk chunk ds ∧ DigitRun ds ∧
      ∀ c, post.head? = some c → Char.isDigit c = false := by
  unfold mangaMatchAt at h
  split at h
  · rename_i ds1 heq
    simp only [Option.some.injEq] at h
    subst h
    obtain ⟨w, post, hl, hw, hds, hpost⟩ := mangaVolumeAlt_sound heq
    exact ⟨w ++ ds1, post, hl, Or.inl ⟨w, hw, rfl⟩, hds, hpost⟩
  · rename_i heqV
    split at h
    · rename_i ds1 heq
      simp only [Option.some.injEq] at h
      subst h
      obtain ⟨w, post, hor, hw, hds, hpost⟩ := mangaVolDotAlt_sound heq
      rcases hor with hl | hl
      · exact ⟨w ++ ds1, post, hl, Or.inr (Or.inl ⟨w, hw, Or.inl rfl⟩), hds, hpost⟩
      · exact ⟨w ++ '.' :: ds1, post, hl,
          Or.inr (Or.inl ⟨w, hw, Or.inr rfl⟩), hds, hpost⟩
    · rename_i heqVol
      split at h
      · rename_i ds1 heq
        simp only [Option.some.injEq] at h
        subst h
        rw [mangaHashAlt_eq] at heq
        obtain ⟨post, hl, hds, hpost⟩ := cbzHashAlt_sound heq
        exact ⟨'#' :: ds1, post, hl, Or.inr (Or.inr (Or.inl rfl)), hds, hpost⟩
      · rw [mangaVAlt_eq] at h
        obtain ⟨v, post, hl, hv, hds, hpost⟩ := cbzVAlt_sound h
        exact ⟨v :: ds, post, hl,
          Or.inr (Or.inr (Or.inr ⟨v, List.Forall₂.cons hv List.Forall₂.nil, rfl⟩)),
          hds, hpost⟩

theorem mangaMatchAt_none {l : List Char} (h : mangaMatchAt l = none) :
    mangaVolumeAlt l = none ∧ mangaVolDotAlt l = none ∧ mangaHashAlt l = none ∧
      mangaVAlt l = none := by
  unfold mangaMatchAt at h
  split at h
  · simp at h
  · rename_i h1
    split at h
    · simp at h
    · rename_i h2
      split at h
      · simp at h
      · rename_i h3
        exact ⟨h1, h2, h3, h⟩

theorem mangaMatchAt_of_chunk {chunk ds : List Char} (post : List Char)
    (hc : MangaChunk chunk ds) (hds : DigitRun ds) :
    mangaMatchAt (chunk ++ post) ≠ none := by
  intro hnone
  obtain ⟨h1, h2, h3, h4⟩ := mangaMatchAt_none hnone
  rcases hc with ⟨w, hw, rfl⟩ | ⟨w, hw, hor⟩ | rfl | ⟨v, hw, rfl⟩
  · exact mangaVolumeAlt_complete post hw hds h1
  · rcases hor with rfl | rfl
    · exact mangaVolDotAlt_complete_plain post hw hds h2
    · exact mangaVolDotAlt_complete_dot post hw hds h2
  · rw [mangaHashAlt_eq] at h3
    exact cbzHashAlt_complete post hds h3
  · obtain ⟨v', hveq, hv⟩ := CIWord_single hw
    simp only [List.cons.injEq, and_true] at hveq
    subst hveq
    rw [mangaVAlt_eq] at h4
    exact cbzVAlt_complete post hv hds h4

theorem mangaSearch_sound {l ds : List Char} (h : mangaSearch l = some ds) :
    ∃ pre suf, l = pre ++ suf ∧ mangaMatchAt suf = some ds := by
  induction l with
  | nil => simp [mangaSearch] at h
  | cons c rest ih =>
    unfold mangaSearch at h
    split at h
    · rename_i ds1 heq
      simp only [Option.some.injEq] at h
      subst h
      exact ⟨[], c :: rest, rfl, heq⟩
    · obtain ⟨pre, suf, hrest, hm⟩ := ih h
      exact ⟨c :: pre, suf, by simp [hrest], hm⟩

theorem mangaSearch_ne_none (pre suf : List Char) (h : mangaMatchAt suf ≠ none) :
    mangaSearch (pre ++ suf) ≠ none := by
  induction pre with
  | nil =>
    cases suf with
    | nil => exact absurd (by decide) h
    | cons c r =>
      show mangaSearch (c :: r) ≠ none
      unfold mangaSearch
      split
      · simp
      · rename_i heq
        exact absurd heq h
  | cons c pre ih =>
    show mangaSearch (c :: (pre ++ suf)) ≠ none
    unfold mangaSearch
    split
    · simp
    · exact ih

theorem extract_ne_empty_iff (t : String) :
    extract_volume_number t ≠ "" ↔ CbzOccurs t := by
  constructor
  · intro h
    unfold extract_volume_number at h
    cases hs : cbzSearch t.data with
    | none =>
      rw [hs] at h
      exact absurd rfl h
    | some ds =>
      obtain ⟨pre, suf, hdata, hm⟩ := cbzSearch_sound hs
      obtain ⟨chunk, post, hsuf, hc, hds, hpost⟩ := cbzMatchAt_sound hm
      exact ⟨pre, chunk, post, ds, by rw [hdata, hsuf]; simp, hc, hds⟩
  · rintro ⟨pre, chunk, post, ds, hdata, hc, hds⟩
    unfold extract_volume_number
    cases hs : cbzSearch t.data with
    | none =>
      exfalso
      apply cbzSearch_ne_none pre (chunk ++ post) (cbzMatchAt_of_chunk post hc hds)
      rw [show pre ++ (chunk ++ post) = t.data by rw [hdata]; simp]
      exact hs
    | some ds' =>
      obtain ⟨pre', suf', hdata', hm'⟩ := cbzSearch_sound hs
      obtain ⟨c', p', hsuf', hc', hds', hpost'⟩ := cbzMatchAt_sound hm'
      intro hcon
      exact hds'.1 (congrArg String.data hcon)

theorem extract_matched (t : String) (ds : List Char)
    (h : extract_volume_number t = String.mk ds) (hne : ds ≠ []) :
    CbzMatched t ds := by
  unfold extract_volume_number at h
  cases hs : cbzSearch t.data with
  | none =>
    rw [hs] at h
    exact absurd (congrArg String.data h).symm hne
  | some ds' =>
    rw [hs] at h
    have hds2 : ds' = ds := congrArg String.data h
    subst hds2
    obtain ⟨pre, suf, hdata, hm⟩ := cbzSearch_sound hs
    obtain ⟨chunk, post, hsuf, hc, hds, hpost⟩ := cbzMatchAt_sound hm
    exact ⟨pre, chunk, post, by rw [hdata, hsuf]; simp, hc, hds, hpost⟩

theorem manga_extract_ne_empty_iff (t : String) :
    manga_extract_volume_number t ≠ "" ↔ MangaOccurs t := by
  constructor
  · intro h
    unfold manga_extract_volume_number at h
    cases hs : mangaSearch t.data with
    | none =>
      rw [hs] at h
      exact absurd rfl h
    | some ds =>
      obtain ⟨pre, suf, hdata, hm⟩ := mangaSearch_sound hs
      obtain ⟨chunk, post, hsuf, hc, hds, hpost⟩ := mangaMatchAt_sound hm
      exact ⟨pre, chunk, post, ds, by rw [hdata, hsuf]; simp, hc, hds⟩
  · rintro ⟨pre, chunk, post, ds, hdata, hc, hds⟩
    unfold manga_extract_volume_number
    cases hs : mangaSearch t.data with
    | none =>
      exfalso
      apply mangaSearch_ne_none pre (chunk ++ post) (mangaMatchAt_of_chunk post hc hds)
      rw [show pre ++ (chunk ++ post) = t.data by rw [hdata]; simp]
      exact hs
    | some ds' =>
      obtain ⟨pre', suf', hdata', hm'⟩ := mangaSearch_sound hs
      obtain ⟨c', p', hsuf', hc', hds', hpost'⟩ := mangaMatchAt_sound hm'
      intro hcon
      exact hds'.1 (congrArg String.data hcon)

theorem manga_extract_matched (t : String) (ds : List Char)
    (h : manga_extract_volume_number t = String.mk ds) (hne : ds ≠ []) :
    MangaMatched t ds := by
  unfold manga_extract_volume_number at h
  cases hs : mangaSearch t.data with
  | none =>
    rw [hs] at h
    exact absurd (congrArg String.data h).symm hne
  | some ds' =>
    rw [hs] at h
    have hds2 : ds' = ds := congrArg String.data h
    subst hds2
    obtain ⟨pre, suf, hdata, hm⟩ := mangaSearch_sound hs
    obtain ⟨chunk, post, hsuf, hc, hds, hpost⟩ := mangaMatchAt_sound hm
    exact ⟨pre, chunk, post, by rw [hdata, hsuf]; simp, hc, hds, hpost⟩

/-- C1 (amended): each extractor is characterised against the patterns it
actually implements.  The cbz variant returns a non-empty result exactly
when the title contains `v`+digits, `volume `+digits, `vol`[`.`]` `+digits
(one literal space) or `#`+digits (case-insensitive), and any non-empty
result is verbatim the maximal digit run following such a trigger.  The
manga variant requires the digits immediately after
`volume`/`vol`[`.`]/`#`/`v`, with no space at all. -/
theorem extract_volume_characterization : ∀ t : String,
    (extract_volume_number t ≠ "" ↔ CbzOccurs t) ∧
    (∀ ds, extract_volume_number t = String.mk ds → ds ≠ [] → CbzMatched t ds) ∧
    (manga_extract_volume_number t ≠ "" ↔ MangaOccurs t) ∧
    (∀ ds, manga_extract_volume_number t = String.mk ds → ds ≠ [] →
      MangaMatched t ds) := by
  intro t
  exact ⟨extract_ne_empty_iff t, extract_matched t,
    manga_extract_ne_empty_iff t, manga_extract_matched t⟩

/-- C1 witness: the characterisation applied to concrete titles. -/
theorem extract_volume_characterization_witness :
    CbzOccurs "v07" ∧ CbzMatched "v07" ['0', '7'] ∧
    MangaOccurs "Vol7" ∧ MangaMatched "Vol7" ['7'] :=
  ⟨((extract_volume_characterization "v07").1).mp (by decide),
   ((extract_volume_characterization "v07").2.1) ['0', '7'] (by decide) (by decide),
   ((extract_volume_characterization "Vol7").2.2.1).mp (by decide),
   ((extract_volume_characterization "Vol7").2.2.2) ['7'] (by decide) (by decide)⟩
